import Mathlib

/-!
# Verification of the `unifs` in-memory and stacked filesystems

This file is a shallow embedding of the core of the `unifs` crate:
the in-memory filesystem engine (`src/memory_fs/mod.rs`,
`src/memory_fs/file.rs`, `src/memory_fs/open_options.rs`, together with the
default `UniFs::write` of `src/traits/file_system.rs`) and the overlay
(stacked) filesystem (`src/stacked_fs.rs`).

Modelling conventions:
* A Rust `Path` input is the stream of `std::path::Component`s the code
  iterates over (`Comp` below); a canonical absolute path (the key type of
  the in-memory table) is its list of normal components below the root
  (`CPath`, the root itself being `[]`).
* `HashMap<PathBuf, MemoryEntry>` is an association list with
  insert-replaces-existing semantics; `HashSet<OsString>` child sets are
  duplicate-free lists (iteration order of the Rust hash containers is
  unspecified; the list order fixes one such order).
* `SystemTime::now()` is an abstract tick `now : Nat` threaded into every
  mutating operation; byte buffers are `List Nat`.
* Fallible operations return `Except ErrKind _` where `ErrKind` mirrors the
  `std::io::ErrorKind` values the crate constructs.
* The recursive helpers `remove_recursive` and `change_path_recursive`
  recurse through table lookups whose keys strictly lengthen, so their
  recursion depth is bounded by the longest key in the table; they take a
  fuel argument that the callers instantiate above that bound.
-/

namespace Unifs

/-- A path component, mirroring `std::path::Component` as consumed by
`canonicalize_inner` (`Prefix` is Windows-only and folded into `rootDir`,
exactly as the Rust `Component::Prefix(_) | Component::RootDir` arm does). -/
inductive Comp
  | curDir
  | parentDir
  | rootDir
  | normal (name : String)
deriving DecidableEq, Repr

/-- A canonical absolute path: the list of normal components below the root.
The root directory `/` is `[]`. -/
abbrev CPath := List String

/-- The `std::io::ErrorKind` values constructed by the crate. -/
inductive ErrKind
  | notFound
  | alreadyExists
  | invalidInput
  | directoryNotEmpty
  | permissionDenied
  | unsupported
  | invalidData
  | other
deriving DecidableEq, Repr

/-- `MemoryEntryType`: file with its byte buffer, directory with its child-name
set, or hard link with its target canonical path. -/
inductive EntryType
  | file (data : List Nat)
  | directory (children : List String)
  | hardLink (target : CPath)
deriving DecidableEq, Repr

/-- `MemoryEntry`: entry kind plus timestamps and the readonly permission bit. -/
structure Entry where
  type : EntryType
  created : Nat
  modified : Option Nat
  accessed : Option Nat
  readonly : Bool
deriving DecidableEq, Repr

/-- Lookup in an association list keyed by canonical paths
(`HashMap::get`). -/
def lookupList : List (CPath × Entry) → CPath → Option Entry
  | [], _ => none
  | (k, e) :: rest, q => if k = q then some e else lookupList rest q

/-- Remove every binding of a key (`HashMap::remove`; keys are unique, so at
most one binding is present in states built by the operations). -/
def removeList : List (CPath × Entry) → CPath → List (CPath × Entry)
  | [], _ => []
  | (k, e) :: rest, q => if k = q then removeList rest q else (k, e) :: removeList rest q

/-- `MemoryFsInner`: the flat table from canonical path to entry. -/
structure Fs where
  files : List (CPath × Entry)
deriving DecidableEq, Repr

def Fs.lookup (fs : Fs) (q : CPath) : Option Entry := lookupList fs.files q

/-- `HashMap::insert`: replaces any existing binding of the key. -/
def Fs.insert (fs : Fs) (q : CPath) (e : Entry) : Fs := ⟨(q, e) :: removeList fs.files q⟩

def Fs.remove (fs : Fs) (q : CPath) : Fs := ⟨removeList fs.files q⟩

def Fs.contains (fs : Fs) (q : CPath) : Bool := (fs.lookup q).isSome

/-- `HashSet::insert` on a child-name set. -/
def childInsert (l : List String) (n : String) : List String := if n ∈ l then l else n :: l

/-- `HashSet::remove` on a child-name set. -/
def childRemove (l : List String) (n : String) : List String := l.erase n

/-- `PathBuf::parent` of a canonical path: `None` for the root. -/
def parentOf (p : CPath) : Option CPath := if p.isEmpty then none else some p.dropLast

/-- `Path::file_name().unwrap()` of a canonical path; only evaluated where the
Rust code has already established the path is not the root. -/
def fileNameOf (p : CPath) : String := p.getLast?.getD ""

/-- The initial `MemoryFsInner::new()` state: just the root directory.
Root creation time is tick `0`. -/
def initFs : Fs :=
  ⟨[([], ⟨.directory [], 0, none, none, false⟩)]⟩

/-! ## Path canonicalization (`canonicalize_inner`) -/

/-- The component-normalization loop of `canonicalize_inner`: `.` skipped,
normal components pushed, `..` pops (`NotFound` when there is nothing to
pop), a root component resets the accumulator. The final re-rooting
(`Path::new("/").join(buf)`) does not change the component list. -/
def canonPureAux : List Comp → CPath → Except ErrKind CPath
  | [], acc => .ok acc
  | .curDir :: rest, acc => canonPureAux rest acc
  | .normal n :: rest, acc => canonPureAux rest (acc ++ [n])
  | .parentDir :: rest, acc =>
      if acc.isEmpty then .error .notFound else canonPureAux rest acc.dropLast
  | .rootDir :: rest, _ => canonPureAux rest []

def canonPure (comps : List Comp) : Except ErrKind CPath := canonPureAux comps []

/-- One step of the hard-link resolution walk: append the next component and,
if the accumulated path is a `HardLink` entry, replace the accumulator with
its target. -/
def resolveStep (fs : Fs) (cur : CPath) (n : String) : CPath :=
  let c := cur ++ [n]
  match fs.lookup c with
  | some e =>
    match e.type with
    | .hardLink t => t
    | _ => c
  | none => c

/-- The hard-link resolution walk over the components of an
already-normalized path, from the root. The normalized path contains only
normal components, so the `ParentDir` arm of the Rust walk is never hit. -/
def resolveWalk (fs : Fs) (p : CPath) : CPath := p.foldl (resolveStep fs) []

/-- Whether `canonicalize_inner` runs the resolution walk: the normalized path
is a `HardLink` entry or absent from the table. -/
def wantsResolve (fs : Fs) (buf : CPath) : Bool :=
  match fs.lookup buf with
  | some e =>
    match e.type with
    | .hardLink _ => true
    | _ => false
  | none => true

/-- `canonicalize_inner`. -/
def canonicalizeInner (fs : Fs) (comps : List Comp) (resolveHardlinks : Bool) :
    Except ErrKind CPath :=
  match canonPure comps with
  | .error e => .error e
  | .ok buf =>
    if resolveHardlinks then
      if wantsResolve fs buf then .ok (resolveWalk fs buf) else .ok buf
    else .ok buf

/-- The component list of a canonical path, as `PathBuf::components` would
yield it (`/a/b` ↦ `[rootDir, a, b]`). Used where the Rust code re-feeds an
already-canonical `PathBuf` into a path-taking helper. -/
def cpathToComps (p : CPath) : List Comp := .rootDir :: p.map .normal

/-! ## Metadata -/

inductive FileTy
  | file
  | directory
  | symlink
deriving DecidableEq, Repr

/-- `From<MemoryEntryType> for FileType` (hard links report as `Symlink`). -/
def EntryType.toFileTy : EntryType → FileTy
  | .file _ => .file
  | .directory _ => .directory
  | .hardLink _ => .symlink

/-- `MemoryMetadata`. -/
structure Metadata where
  fileType : FileTy
  len : Nat
  readonly : Bool
  created : Nat
  modified : Option Nat
  accessed : Option Nat
deriving DecidableEq, Repr

/-- `MemoryEntry::metadata`. -/
def Entry.metadata (e : Entry) : Metadata :=
  { fileType := e.type.toFileTy
    len := match e.type with
      | .file d => d.length
      | _ => 0
    readonly := e.readonly
    created := e.created
    modified := e.modified
    accessed := e.accessed }

/-! ## Read-only operations of the in-memory engine -/

/-- `exists`. -/
def fsExists (fs : Fs) (comps : List Comp) : Except ErrKind Bool :=
  match canonicalizeInner fs comps true with
  | .error e => .error e
  | .ok p => .ok (fs.contains p)

/-- `metadata`. -/
def fsMetadata (fs : Fs) (comps : List Comp) : Except ErrKind Metadata :=
  match canonicalizeInner fs comps true with
  | .error e => .error e
  | .ok p =>
    match fs.lookup p with
    | some e => .ok e.metadata
    | none => .error .notFound

/-- `read`. -/
def fsRead (fs : Fs) (comps : List Comp) : Except ErrKind (List Nat) :=
  match canonicalizeInner fs comps true with
  | .error e => .error e
  | .ok p =>
    match fs.lookup p with
    | some e =>
      match e.type with
      | .file data => .ok data
      | _ => .error .invalidInput
    | none => .error .notFound

deriving instance DecidableEq for Except

/-- A `MemoryDirEntry` as materialized by `read_dir`. -/
structure DirEntry where
  fileName : String
  path : CPath
  metadata : Except ErrKind Metadata
  fileType : Except ErrKind FileTy
deriving DecidableEq, Repr

/-- Insertion into a name list sorted by `Ord String`. -/
def insertSorted (s : String) : List String → List String
  | [] => [s]
  | t :: ts => if (compare s t).isLE then s :: t :: ts else t :: insertSorted s ts

/-- `Vec::sort` on the collected child names. -/
def sortStrings (l : List String) : List String := l.foldr insertSorted []

/-- `read_dir`: snapshot of the directory's children, sorted by name; a child
name with no table entry yields an `Err` element (not a failure of the whole
call). -/
def fsReadDir (fs : Fs) (comps : List Comp) : Except ErrKind (List (Except ErrKind DirEntry)) :=
  match canonicalizeInner fs comps true with
  | .error e => .error e
  | .ok p =>
    match fs.lookup p with
    | some e =>
      match e.type with
      | .directory children =>
        .ok ((sortStrings children).map (fun n =>
          let childPath := p ++ [n]
          match fs.lookup childPath with
          | some ce =>
            .ok { fileName := n
                  path := childPath
                  metadata := .ok ce.metadata
                  fileType := .ok ce.type.toFileTy }
          | none => .error .notFound))
      | _ => .error .invalidInput
    | none => .error .notFound

/-- `read_link`: unconditionally unsupported on the in-memory backend. -/
def fsReadLink (_comps : List Comp) : Except ErrKind CPath := .error .unsupported

/-- `symlink_metadata`: unconditionally unsupported on the in-memory backend. -/
def fsSymlinkMetadata (_comps : List Comp) : Except ErrKind Metadata := .error .unsupported

/-! ## Mutating operations of the in-memory engine -/

/-- `create_dir`. -/
def fsCreateDir (now : Nat) (fs : Fs) (comps : List Comp) : Except ErrKind Fs :=
  match canonicalizeInner fs comps false with
  | .error e => .error e
  | .ok p =>
    if fs.contains p then .error .alreadyExists
    else
      let newEntry : Entry := ⟨.directory [], now, some now, none, false⟩
      match parentOf p with
      | some par =>
        match fs.lookup par with
        | none => .error .notFound
        | some pe =>
          match pe.type with
          | .directory ch =>
            .ok (((fs.insert par { pe with type := .directory (childInsert ch (fileNameOf p)) })).insert p newEntry)
          | _ => .error .invalidInput
      | none => .ok (fs.insert p newEntry)

/-- `copy`: deep-copies a file buffer to the destination, registering the
destination in its parent's child set; the parent checks are skipped entirely
when either path is the root (the `if let (Some, Some)` pattern). -/
def fsCopy (now : Nat) (fs : Fs) (fromP toP : List Comp) : Except ErrKind (Nat × Fs) :=
  match canonicalizeInner fs fromP true with
  | .error e => .error e
  | .ok f =>
    match canonicalizeInner fs toP true with
    | .error e => .error e
    | .ok t =>
      match fs.lookup f with
      | none => .error .notFound
      | some fe =>
        match fe.type with
        | .file data =>
          let newEntry : Entry := ⟨.file data, now, some now, none, fe.readonly⟩
          match parentOf f, parentOf t with
          | some fp, some tp =>
            if ¬ fs.contains fp then .error .notFound
            else
              match fs.lookup tp with
              | some tpe =>
                match tpe.type with
                | .directory ch =>
                  .ok (data.length,
                    ((fs.insert tp { tpe with type := .directory (childInsert ch (fileNameOf t)) })).insert t newEntry)
                | _ => .error .invalidInput
              | none => .error .notFound
          | _, _ => .ok (data.length, fs.insert t newEntry)
        | _ => .error .invalidInput

/-- `hard_link`: the original is resolved through links, the link path is not;
the link entry stores the resolved original path. -/
def fsHardLink (now : Nat) (fs : Fs) (original link : List Comp) : Except ErrKind Fs :=
  match canonicalizeInner fs original true with
  | .error e => .error e
  | .ok o =>
    match canonicalizeInner fs link false with
    | .error e => .error e
    | .ok l =>
      if ¬ fs.contains o then .error .notFound
      else if fs.contains l then .error .alreadyExists
      else
        match parentOf l with
        | none => .error .invalidInput
        | some lp =>
          match fs.lookup lp with
          | none => .error .notFound
          | some lpe =>
            match lpe.type with
            | .directory ch =>
              .ok (((fs.insert lp { lpe with type := .directory (childInsert ch (fileNameOf l)) })).insert l
                ⟨.hardLink o, now, some now, none, false⟩)
            | _ => .error .notFound

/-- `remove_file`: note the path is canonicalized *with* hard-link
resolution, so a link path resolves to its target before removal. -/
def fsRemoveFile (fs : Fs) (comps : List Comp) : Except ErrKind Fs :=
  match canonicalizeInner fs comps true with
  | .error e => .error e
  | .ok p =>
    match fs.lookup p with
    | none => .error .notFound
    | some e =>
      match e.type with
      | .file _ =>
        let fs1 :=
          match parentOf p with
          | some par =>
            match fs.lookup par with
            | some pe =>
              match pe.type with
              | .directory ch =>
                fs.insert par { pe with type := .directory (childRemove ch (fileNameOf p)) }
              | _ => fs
            | none => fs
          | none => fs
        .ok (fs1.remove p)
      | _ => .error .invalidInput

/-- `remove_dir`. -/
def fsRemoveDir (fs : Fs) (comps : List Comp) : Except ErrKind Fs :=
  match canonicalizeInner fs comps true with
  | .error e => .error e
  | .ok p =>
    match fs.lookup p with
    | none => .error .notFound
    | some e =>
      match e.type with
      | .directory ch =>
        if ch.isEmpty then
          match parentOf p with
          | none => .error .invalidInput
          | some par =>
            match fs.lookup par with
            | some pe =>
              match pe.type with
              | .directory pch =>
                .ok (((fs.insert par { pe with type := .directory (childRemove pch (fileNameOf p)) })).remove p)
              | _ => .error .invalidInput
            | none => .ok (fs.remove p)
        else .error .directoryNotEmpty
      | _ => .error .invalidInput

/-- `remove_recursive`: files are unlinked from their parent and removed,
directories recurse over their child set first, hard links are just removed.
Fuel bounds the recursion depth (see the module comment). -/
def removeRecursive (fuel : Nat) (p : CPath) (fs : Fs) : Except ErrKind Fs :=
  match fuel with
  | 0 => .error .other
  | fuel + 1 =>
    match fs.lookup p with
    | none => .error .notFound
    | some e =>
      match e.type with
      | .directory children =>
        match children.foldlM (fun acc n => removeRecursive fuel (p ++ [n]) acc) fs with
        | .error e => .error e
        | .ok fs1 => .ok (fs1.remove p)
      | .file _ =>
        let fs1 :=
          match parentOf p with
          | some par =>
            match fs.lookup par with
            | some pe =>
              match pe.type with
              | .directory ch =>
                fs.insert par { pe with type := .directory (childRemove ch (fileNameOf p)) }
              | _ => fs
            | none => fs
          | none => fs
        .ok (fs1.remove p)
      | .hardLink _ => .ok (fs.remove p)

/-- Fuel exceeding the recursion depth of any walk over the table: one more
than the length of the longest key. -/
def fsFuel (fs : Fs) : Nat := fs.files.foldr (fun kv m => max kv.1.length m) 0 + 1

/-- `remove_dir_all`. -/
def fsRemoveDirAll (fs : Fs) (comps : List Comp) : Except ErrKind Fs :=
  match canonicalizeInner fs comps true with
  | .error e => .error e
  | .ok p =>
    match fs.lookup p with
    | none => .error .notFound
    | some e =>
      match e.type with
      | .directory children =>
        match children.foldlM (fun acc n => removeRecursive (fsFuel fs) (p ++ [n]) acc) fs with
        | .error e => .error e
        | .ok fs1 =>
          match parentOf p with
          | none => .error .invalidInput
          | some par =>
            match fs1.lookup par with
            | some pe =>
              match pe.type with
              | .directory pch =>
                .ok (((fs1.insert par { pe with type := .directory (childRemove pch (fileNameOf p)) })).remove p)
              | _ => .error .invalidInput
            | none => .ok (fs1.remove p)
      | _ => .error .invalidInput

/-- `change_path_recursive`: remove the entry at `from ++ subpath`, recurse
over a directory's children, refresh timestamps on files and hard links, and
re-insert under `to ++ subpath`. -/
def changePathRec (fuel : Nat) (now : Nat) (fromP toP : CPath) (subpath : CPath) (fs : Fs) :
    Except ErrKind Fs :=
  match fuel with
  | 0 => .error .other
  | fuel + 1 =>
    let fromPath := fromP ++ subpath
    let toPath := toP ++ subpath
    match fs.lookup fromPath with
    | none => .error .notFound
    | some entry =>
      let fs1 := fs.remove fromPath
      match entry.type with
      | .directory children =>
        match children.foldlM (fun acc n => changePathRec fuel now fromP toP (subpath ++ [n]) acc) fs1 with
        | .error e => .error e
        | .ok fs2 => .ok (fs2.insert toPath entry)
      | _ =>
        .ok (fs1.insert toPath { entry with accessed := some now, modified := some now })

/-- `rename`: source resolved through links, destination not; an existing
directory destination is `AlreadyExists`; descendants are rewritten
recursively; the two parents' child sets are updated only when the parents
differ. -/
def fsRename (now : Nat) (fs : Fs) (fromP toP : List Comp) : Except ErrKind Fs :=
  match canonicalizeInner fs fromP true with
  | .error e => .error e
  | .ok f =>
    match canonicalizeInner fs toP false with
    | .error e => .error e
    | .ok t =>
      if ¬ fs.contains f then .error .notFound
      else
        let destIsDir : Bool :=
          match fs.lookup t with
          | some e =>
            match e.type with
            | .directory _ => true
            | _ => false
          | none => false
        if destIsDir then .error .alreadyExists
        else
          match fs.lookup f with
          | none => .ok fs
          | some entry =>
            let fs1 := fs.remove f
            let recursed : Except ErrKind Fs :=
              match entry.type with
              | .directory children =>
                children.foldlM (fun acc n => changePathRec (fsFuel fs) now f t [n] acc) fs1
              | _ => .ok fs1
            match recursed with
            | .error e => .error e
            | .ok fs2 =>
              let fs3 :=
                match parentOf f, parentOf t with
                | some fp, some tp =>
                  if fp ≠ tp then
                    let fsA :=
                      match fs2.lookup fp with
                      | some fpe =>
                        match fpe.type with
                        | .directory ch =>
                          fs2.insert fp { fpe with type := .directory (childRemove ch (fileNameOf f)) }
                        | _ => fs2
                      | none => fs2
                    match fsA.lookup tp with
                    | some tpe =>
                      match tpe.type with
                      | .directory ch =>
                        fsA.insert tp { tpe with type := .directory (childInsert ch (fileNameOf t)) }
                      | _ => fsA
                    | none => fsA
                  else fs2
                | _, _ => fs2
              .ok (fs3.insert t { entry with accessed := some now, modified := some now })

/-- `set_permissions` (`Permissions` is just the readonly bit). -/
def fsSetPermissions (now : Nat) (fs : Fs) (comps : List Comp) (readonly : Bool) :
    Except ErrKind Fs :=
  match canonicalizeInner fs comps true with
  | .error e => .error e
  | .ok p =>
    match fs.lookup p with
    | some e => .ok (fs.insert p { e with readonly := readonly, modified := some now })
    | none => .error .notFound

/-! ## Open options and file handles -/

/-- `MemoryOpenOptions` flag state. The builder methods `append(true)` and
`create_new(true)` also set `write` and `create` respectively; the flag
records below are the post-builder states. -/
structure OpenOptions where
  read : Bool := false
  write : Bool := false
  append : Bool := false
  truncate : Bool := false
  create : Bool := false
  createNew : Bool := false
deriving DecidableEq, Repr

/-- An open `MemoryFile` handle. The handle's shared `Arc` buffer is
represented through the table entry at `path`: every handle operation below
reads and writes the buffer stored there, which models the aliasing between
the table entry and the handle for the sequential open-then-use traces this
development works with. -/
structure OpenFile where
  path : CPath
  writeFlag : Bool
  append : Bool
  position : Nat
deriving DecidableEq, Repr

/-- `MemoryOpenOptions::open`. The two `exists` pre-checks re-canonicalize
the already-canonical path (each is only evaluated when its flag requires it,
mirroring the short-circuiting `&&`). -/
def fsOpen (now : Nat) (opts : OpenOptions) (fs : Fs) (comps : List Comp) :
    Except ErrKind (OpenFile × Fs) :=
  match canonicalizeInner fs comps true with
  | .error e => .error e
  | .ok p =>
    let chk1 : Except ErrKind Unit :=
      if opts.createNew then
        match fsExists fs (cpathToComps p) with
        | .error e => .error e
        | .ok true => .error .alreadyExists
        | .ok false => .ok ()
      else .ok ()
    match chk1 with
    | .error e => .error e
    | .ok () =>
      let chk2 : Except ErrKind Unit :=
        if ¬ opts.create then
          match fsExists fs (cpathToComps p) with
          | .error e => .error e
          | .ok false => .error .notFound
          | .ok true => .ok ()
        else .ok ()
      match chk2 with
      | .error e => .error e
      | .ok () =>
        match fs.lookup p with
        | some entry =>
          match entry.type with
          | .directory _ => .error .invalidInput
          | .hardLink _ => .error .invalidInput
          | .file _ =>
            let fs1 := if opts.truncate then fs.insert p { entry with type := .file [] } else fs
            .ok (⟨p, opts.write, opts.append, 0⟩, fs1)
        | none =>
          if ¬ opts.create ∨ ¬ opts.write then .error .notFound
          else
            match parentOf p with
            | none => .error .invalidInput
            | some par =>
              match fs.lookup par with
              | some pe =>
                match pe.type with
                | .directory ch =>
                  let fs1 := fs.insert par { pe with type := .directory (childInsert ch (fileNameOf p)) }
                  .ok (⟨p, opts.write, opts.append, 0⟩,
                    fs1.insert p ⟨.file [], now, none, none, false⟩)
                | _ => .error .invalidInput
              | none => .error .notFound

/-- Overwrite `buf` into `data` starting at `pos`; callers have already
grown `data` so that `pos + buf.length ≤ data.length`. -/
def writeAt (data : List Nat) (pos : Nat) (buf : List Nat) : List Nat :=
  data.take pos ++ buf ++ data.drop (pos + buf.length)

/-- `<MemoryFile as Write>::write` (a single call writes the whole slice, so
`write_all` performs exactly one such call): refuse without the write flag,
jump to the end in append mode, zero-extend if needed, copy in place,
advance the cursor. -/
def fileWrite (h : OpenFile) (fs : Fs) (buf : List Nat) :
    Except ErrKind (OpenFile × Fs) :=
  if ¬ h.writeFlag then .error .permissionDenied
  else
    match fs.lookup h.path with
    | some e =>
      match e.type with
      | .file data =>
        let pos := if h.append then data.length else h.position
        let grown :=
          if data.length < pos + buf.length then
            data ++ List.replicate (pos + buf.length - data.length) 0
          else data
        .ok ({ h with position := pos + buf.length },
          fs.insert h.path { e with type := .file (writeAt grown pos buf) })
      | _ => .error .other
    | none => .error .other

/-- The default `UniFs::write`: open with `write + create + truncate`, then
`write_all` the contents. -/
def fsWrite (now : Nat) (fs : Fs) (comps : List Comp) (contents : List Nat) :
    Except ErrKind Fs :=
  match fsOpen now { write := true, create := true, truncate := true } fs comps with
  | .error e => .error e
  | .ok (h, fs1) =>
    match fileWrite h fs1 contents with
    | .error e => .error e
    | .ok (_, fs2) => .ok fs2

/-- `std::io::SeekFrom` (`Start` carries a `u64`, the others an `i64`). -/
inductive SeekFrom
  | start (offset : Nat)
  | fromEnd (offset : Int)
  | current (offset : Int)
deriving DecidableEq, Repr

/-- An `i64` value converted by `as usize` (64-bit target): reduction
modulo `2 ^ 64`, negative values wrapping around. -/
def toUsize (i : Int) : Nat := (i % (2 ^ 64 : Int)).toNat

/-- `<MemoryFile as Seek>::seek`, as a function of the shared buffer and the
cursor, returning the new cursor position. (The method also clears the
handle's append flag; the offsets live in the `i64` range, so the `i64`
negation and addition do not wrap.) The `End` arm compares
`(-offset) as usize` — an unsigned wrap for positive offsets — against the
buffer length. -/
def fileSeek (data : List Nat) (position : Nat) (pos : SeekFrom) : Except ErrKind Nat :=
  match pos with
  | .start offset => .ok offset
  | .fromEnd offset =>
    if data.length < toUsize (-offset) then .error .invalidInput
    else .ok (toUsize ((data.length : Int) + offset))
  | .current offset =>
    if (position : Int) + offset < 0 then .error .invalidInput
    else .ok ((position : Int) + offset).toNat

/-! ## The stacked (overlay) filesystem

`StackedFs` is generic over two backends implementing `UniFs`; the backend is
modelled as a record of the call behaviours the stacked dispatch consults,
with the result types of backend-specific calls abstract. -/

/-- An abstract `UniFs` backend as seen by `StackedFs`: each field is the
observable behaviour of one trait call (for mutating calls, instantiations
may expose the resulting state through the result type `υ`). -/
structure Backend (μ ρ σ υ : Type) where
  pathExists : List Comp → Except ErrKind Bool
  metadata : List Comp → Except ErrKind μ
  read : List Comp → Except ErrKind (List Nat)
  readDir : List Comp → Except ErrKind ρ
  readLink : List Comp → Except ErrKind (List Comp)
  readToString : List Comp → Except ErrKind σ
  symlinkMetadata : List Comp → Except ErrKind μ
  removeDir : List Comp → Except ErrKind υ
  removeDirAll : List Comp → Except ErrKind υ
  removeFile : List Comp → Except ErrKind υ
  canonicalize : List Comp → Except ErrKind (List Comp)

/-- `Path::strip_prefix(mount_point)`: strip a component-wise prefix. -/
def stripMount (mount p : List Comp) : Option (List Comp) :=
  if mount <+: p then some (p.drop mount.length) else none

/-- A result tagged with the backend that produced it (`StackedMetadata`,
`StackedReadDir`, ...); overlay results carry the mount point. -/
inductive StackedRes (β ω : Type)
  | base (b : β)
  | overlay (o : ω) (mountPoint : List Comp)
deriving DecidableEq, Repr

/-- `PathBuf::join`: an absolute argument replaces the receiver. -/
def pathJoin (a b : List Comp) : List Comp :=
  if b.head? = some .rootDir then b else a ++ b

section Stacked

variable {μB ρB σB υ μO ρO σO : Type}
variable (B : Backend μB ρB σB υ) (O : Backend μO ρO σO υ) (mnt : List Comp)

/-- `StackedFs::exists`. -/
def stackedExists (p : List Comp) : Except ErrKind Bool :=
  match stripMount mnt p with
  | some sp =>
    match O.pathExists sp with
    | .error e => .error e
    | .ok true => .ok true
    | .ok false => B.pathExists p
  | none => B.pathExists p

/-- `StackedFs::metadata`. -/
def stackedMetadata (p : List Comp) : Except ErrKind (StackedRes μB μO) :=
  match stripMount mnt p with
  | some sp =>
    match O.pathExists sp with
    | .error e => .error e
    | .ok true => (O.metadata sp).map (fun m => .overlay m mnt)
    | .ok false => (B.metadata p).map .base
  | none => (B.metadata p).map .base

/-- `StackedFs::read`. -/
def stackedRead (p : List Comp) : Except ErrKind (List Nat) :=
  match stripMount mnt p with
  | some sp =>
    match O.pathExists sp with
    | .error e => .error e
    | .ok true => O.read sp
    | .ok false => B.read p
  | none => B.read p

/-- `StackedFs::read_dir`: an overlay-domain path goes straight to the
overlay — there is no existence check and no fall-through to the base. -/
def stackedReadDir (p : List Comp) : Except ErrKind (StackedRes ρB ρO) :=
  match stripMount mnt p with
  | some sp => (O.readDir sp).map (fun d => .overlay d mnt)
  | none => (B.readDir p).map .base

/-- `StackedFs::read_link`. -/
def stackedReadLink (p : List Comp) : Except ErrKind (List Comp) :=
  match stripMount mnt p with
  | some sp =>
    match O.pathExists sp with
    | .error e => .error e
    | .ok true => O.readLink sp
    | .ok false => B.readLink p
  | none => B.readLink p

/-- `StackedFs::read_to_string`. -/
def stackedReadToString (p : List Comp) : Except ErrKind (StackedRes σB σO) :=
  match stripMount mnt p with
  | some sp =>
    match O.pathExists sp with
    | .error e => .error e
    | .ok true => (O.readToString sp).map (fun s => .overlay s mnt)
    | .ok false => (B.readToString p).map .base
  | none => (B.readToString p).map .base

/-- `StackedFs::symlink_metadata`. -/
def stackedSymlinkMetadata (p : List Comp) : Except ErrKind (StackedRes μB μO) :=
  match stripMount mnt p with
  | some sp =>
    match O.pathExists sp with
    | .error e => .error e
    | .ok true => (O.symlinkMetadata sp).map (fun m => .overlay m mnt)
    | .ok false => (B.symlinkMetadata p).map .base
  | none => (B.symlinkMetadata p).map .base

/-- `StackedFs::remove_dir`. -/
def stackedRemoveDir (p : List Comp) : Except ErrKind υ :=
  match stripMount mnt p with
  | some sp =>
    match O.pathExists sp with
    | .error e => .error e
    | .ok true => O.removeDir sp
    | .ok false => B.removeDir p
  | none => B.removeDir p

/-- `StackedFs::remove_dir_all`. -/
def stackedRemoveDirAll (p : List Comp) : Except ErrKind υ :=
  match stripMount mnt p with
  | some sp =>
    match O.pathExists sp with
    | .error e => .error e
    | .ok true => O.removeDirAll sp
    | .ok false => B.removeDirAll p
  | none => B.removeDirAll p

/-- `StackedFs::remove_file`. -/
def stackedRemoveFile (p : List Comp) : Except ErrKind υ :=
  match stripMount mnt p with
  | some sp =>
    match O.pathExists sp with
    | .error e => .error e
    | .ok true => O.removeFile sp
    | .ok false => B.removeFile p
  | none => B.removeFile p

/-- `StackedFs::canonicalize`: overlay-domain paths are canonicalized by the
overlay and the mount point is `join`ed onto the result. -/
def stackedCanonicalize (p : List Comp) : Except ErrKind (List Comp) :=
  match stripMount mnt p with
  | some sp => (O.canonicalize sp).map (fun c => pathJoin mnt c)
  | none => B.canonicalize p

end Stacked

/-- Wrapping `read_to_string` is modelled up to UTF-8 decoding: the memory
backend instantiation below returns the raw bytes (the decoding step of
`read_to_string` never influences the stacked dispatch). -/
def memBackend (fs : Fs) : Backend Metadata (List (Except ErrKind DirEntry)) (List Nat) Fs where
  pathExists := fsExists fs
  metadata := fsMetadata fs
  read := fsRead fs
  readDir := fsReadDir fs
  readLink := fun c => (fsReadLink c).map cpathToComps
  readToString := fsRead fs
  symlinkMetadata := fun c => fsSymlinkMetadata c
  removeDir := fsRemoveDir fs
  removeDirAll := fsRemoveDirAll fs
  removeFile := fsRemoveFile fs
  canonicalize := fun c => (canonicalizeInner fs c true).map cpathToComps

/-! ## Concrete states and paths used by the claim evaluations -/

def exceptIsOk {ε α : Type _} : Except ε α → Bool
  | .ok _ => true
  | .error _ => false

/-- The children of a directory entry (defaults to `[]` off directories). -/
def childrenOf (fs : Fs) (p : CPath) : List String :=
  match fs.lookup p with
  | some e =>
    match e.type with
    | .directory ch => ch
    | _ => []
  | none => []

def pathRoot : List Comp := [.rootDir]
def pathD : List Comp := [.rootDir, .normal "d"]
def pathDZ : List Comp := [.rootDir, .normal "d", .normal "z"]
def pathDY : List Comp := [.rootDir, .normal "d", .normal "y"]
def pathE : List Comp := [.rootDir, .normal "e"]
def pathEY : List Comp := [.rootDir, .normal "e", .normal "y"]
def pathX : List Comp := [.rootDir, .normal "x"]
def pathF : List Comp := [.rootDir, .normal "f"]
def pathL : List Comp := [.rootDir, .normal "l"]
def pathLink : List Comp := [.rootDir, .normal "link"]

/-- A directory entry literal at tick `0`. -/
def dirE (ch : List String) : Entry := ⟨.directory ch, 0, some 0, none, false⟩

/-- A file entry literal at tick `0`. -/
def fileE (d : List Nat) : Entry := ⟨.file d, 0, some 0, none, false⟩

/-- A base-backend state owning `/m` and the empty directory `/m/d`. -/
def c6Base : Fs := ⟨[([], dirE ["m"]), (["m"], dirE ["d"]), (["m", "d"], dirE [])]⟩

/-- The mount point `/m`. -/
def mountM : List Comp := [.rootDir, .normal "m"]

def pathMD : List Comp := [.rootDir, .normal "m", .normal "d"]
def pathMX : List Comp := [.rootDir, .normal "m", .normal "x"]

/-! ## Predicates used by the general theorems -/

/-- Whether the entry at `q` is a hard link (and its target): the only part
of a state the resolution walk inspects. -/
def linkOf (fs : Fs) (q : CPath) : Option CPath :=
  match fs.lookup q with
  | some e =>
    match e.type with
    | .hardLink t => some t
    | _ => none
  | none => none

/-- Whether the entry at `q` is a hard link. -/
def isHardLinkAt (fs : Fs) (q : CPath) : Bool := (linkOf fs q).isSome

/-- Whether the entry at `q` exists and is a directory. -/
def isDirAt (fs : Fs) (q : CPath) : Bool :=
  match fs.lookup q with
  | some e =>
    match e.type with
    | .directory _ => true
    | _ => false
  | none => false

/-- The spec's first table invariant: every non-root key has its parent in
the table as a directory entry. Phrased over the binding list so that it is
decidable on concrete states. -/
def Inv1 (fs : Fs) : Prop :=
  ∀ kv ∈ fs.files, kv.1 ≠ [] → isDirAt fs kv.1.dropLast = true

instance (fs : Fs) : Decidable (Inv1 fs) := by unfold Inv1; infer_instance

/-- Whether the entry at `p`, if any, is a regular file (the situations in
which `open` with `write + create + truncate` can succeed). -/
def isFileOrAbsent (fs : Fs) (p : CPath) : Bool :=
  match fs.lookup p with
  | some e =>
    match e.type with
    | .file _ => true
    | _ => false
  | none => true

/-- An overlay state owning the empty directory `/d`. -/
def c6OverlayD : Fs := ⟨[([], dirE ["d"]), (["d"], dirE [])]⟩

/-- A state owning the file `/f` with content `[1]`. -/
def c10fs : Fs := ⟨[([], dirE ["f"]), (["f"], fileE [1])]⟩

/-- The state `c10fs` after `set_permissions("/f", readonly)` at tick `0`. -/
def c10fs1 : Fs := ⟨[(["f"], ⟨.file [1], 0, some 0, none, true⟩), ([], dirE ["f"])]⟩

/-- A state owning the file `/f` with content `[1, 2]`. -/
def c5fs : Fs := ⟨[([], dirE ["f"]), (["f"], fileE [1, 2])]⟩

/-- The state `c5fs` after `hard_link("/f", "/l")` at tick `0`. -/
def c5fsAfter : Fs :=
  ⟨[(["l"], ⟨.hardLink ["f"], 0, some 0, none, false⟩),
    ([], ⟨.directory ["l", "f"], 0, some 0, none, false⟩),
    (["f"], fileE [1, 2])]⟩

/-- Clearing the readonly bit of an entry. -/
def Entry.eraseP (e : Entry) : Entry := { e with readonly := false }

/-- Clearing every readonly bit of a state: the "same filesystem with no
file marked read-only". -/
def Fs.eraseP (fs : Fs) : Fs := ⟨fs.files.map (fun kv => (kv.1, kv.2.eraseP))⟩

/-! # Theorems

Each claim of the specification review is settled by one named theorem
below (plus, where the claim has hypotheses, a witness instantiating it). -/

/-! ## Table lemmas -/

theorem lookupList_removeList (l : List (CPath × Entry)) (k q : CPath) :
    lookupList (removeList l k) q = if q = k then none else lookupList l q := by
  induction l with
  | nil => simp [removeList, lookupList]
  | cons kv rest ih =>
    obtain ⟨k', e⟩ := kv
    simp only [removeList, lookupList]
    by_cases hk : k' = k
    · rw [if_pos hk, ih]
      by_cases hq : q = k
      · rw [if_pos hq, if_pos hq]
      · rw [if_neg hq, if_neg hq, if_neg (fun h : k' = q => hq (h.symm.trans hk))]
    · rw [if_neg hk]
      simp only [lookupList]
      by_cases hq : k' = q
      · rw [if_pos hq, if_neg (fun h : q = k => hk (hq.trans h)), if_pos hq]
      · rw [if_neg hq, if_neg hq, ih]

theorem Fs.lookup_insert (fs : Fs) (k : CPath) (e : Entry) (q : CPath) :
    (fs.insert k e).lookup q = if q = k then some e else fs.lookup q := by
  show lookupList ((k, e) :: removeList fs.files k) q = _
  simp only [lookupList, lookupList_removeList]
  by_cases hq : k = q
  · rw [if_pos hq, if_pos hq.symm]
  · rw [if_neg hq, if_neg (fun h : q = k => hq h.symm), if_neg (fun h : q = k => hq h.symm)]
    rfl

theorem Fs.lookup_remove (fs : Fs) (k q : CPath) :
    (fs.remove k).lookup q = if q = k then none else fs.lookup q := by
  simp [Fs.remove, Fs.lookup, lookupList_removeList]

/-! ## C9: seek semantics -/

/-- C9 (amended): seeks from `Start` always succeed; seeks from `Current`
succeed exactly when the resulting position is non-negative and fail with
`InvalidInput` otherwise; seeks from `End` with a non-positive offset succeed
exactly when the resulting position is non-negative; but a seek from `End`
with a *positive* offset — whose resulting position is always non-negative,
and which the claim says must succeed — fails with `InvalidInput` whenever
the buffer is shorter than `2^64 - offset` (that is, always in practice),
because `(-offset) as usize` wraps. Offsets are confined to the `i64` range
where the comparison is involved, and the buffer length to `usize`, matching
the machine types. -/
theorem c9_seek (data : List Nat) (position : Nat)
    (hlen : (data.length : Int) < 2 ^ 64) :
    (∀ off : Nat, fileSeek data position (.start off) = .ok off) ∧
    (∀ off : Int, 0 ≤ (position : Int) + off →
      fileSeek data position (.current off) = .ok ((position : Int) + off).toNat) ∧
    (∀ off : Int, (position : Int) + off < 0 →
      fileSeek data position (.current off) = .error .invalidInput) ∧
    (∀ off : Int, off ≤ 0 → 0 ≤ (data.length : Int) + off →
      fileSeek data position (.fromEnd off) = .ok ((data.length : Int) + off).toNat) ∧
    (∀ off : Int, -(2 ^ 63) ≤ off → (data.length : Int) + off < 0 →
      fileSeek data position (.fromEnd off) = .error .invalidInput) ∧
    (∀ off : Int, 0 < off → (data.length : Int) + off < 2 ^ 64 →
      fileSeek data position (.fromEnd off) = .error .invalidInput) := by
  have h64 : (2 : Int) ^ 64 = 18446744073709551616 := by norm_num
  have h63 : (2 : Int) ^ 63 = 9223372036854775808 := by norm_num
  rw [h64] at hlen
  refine ⟨fun off => rfl, fun off h => ?_, fun off h => ?_, fun off h0 h => ?_,
    fun off hr h => ?_, fun off h0 h => ?_⟩
  · simp only [fileSeek]
    rw [if_neg (by omega)]
  · simp only [fileSeek]
    rw [if_pos h]
  · simp only [fileSeek, toUsize, h64]
    rw [h64] at *
    rw [if_neg (by omega)]
    congr 1
    omega
  · simp only [fileSeek, toUsize, h64]
    rw [h64, h63] at *
    rw [if_pos (by omega)]
  · simp only [fileSeek, toUsize, h64]
    rw [h64] at *
    rw [if_pos (by omega)]

/-- Witness for `c9_seek` on a one-byte buffer with the cursor at `1`. -/
theorem c9_seek_witness :
    fileSeek [0] 1 (.start 5) = .ok 5 ∧
    fileSeek [0] 1 (.current 2) = .ok 3 ∧
    fileSeek [0] 1 (.current (-2)) = .error .invalidInput ∧
    fileSeek [0] 1 (.fromEnd (-1)) = .ok 0 ∧
    fileSeek [0] 1 (.fromEnd (-2)) = .error .invalidInput ∧
    fileSeek [0] 1 (.fromEnd 3) = .error .invalidInput := by
  obtain ⟨h1, h2, h3, h4, h5, h6⟩ := c9_seek [0] 1 (by norm_num)
  refine ⟨h1 5, ?_, h3 (-2) (by norm_num), ?_, h5 (-2) (by norm_num) (by norm_num),
    h6 3 (by norm_num) (by norm_num)⟩
  · have := h2 2 (by norm_num)
    simpa using this
  · have := h4 (-1) (by norm_num) (by norm_num)
    simpa using this

/-! ## Canonicalization lemmas -/

theorem canonPureAux_normals (l : List String) (acc : CPath) :
    canonPureAux (l.map .normal) acc = .ok (acc ++ l) := by
  induction l generalizing acc with
  | nil => simp [canonPureAux]
  | cons n rest ih => simp [canonPureAux, ih]

theorem canonPure_cpathToComps (p : CPath) : canonPure (cpathToComps p) = .ok p := by
  simp [canonPure, cpathToComps, canonPureAux, canonPureAux_normals]

theorem foldl_resolveStep_no_links (fs : Fs) (p : CPath) :
    ∀ (ns acc : List String), acc ++ ns = p →
      (∀ q : CPath, q <+: p → isHardLinkAt fs q = false) →
      List.foldl (resolveStep fs) acc ns = p
  | [], acc, h, _ => by simpa using h
  | n :: rest, acc, h, hl => by
    have hpre : (acc ++ [n]) <+: p := ⟨rest, by simpa using h⟩
    have hstep : resolveStep fs acc n = acc ++ [n] := by
      unfold resolveStep
      cases hc : fs.lookup (acc ++ [n]) with
      | none => simp [hc]
      | some e =>
        cases ht : e.type with
        | hardLink t =>
          exact absurd (hl (acc ++ [n]) hpre) (by simp [isHardLinkAt, linkOf, hc, ht])
        | file d => simp [hc, ht]
        | directory ch => simp [hc, ht]
    rw [List.foldl_cons, hstep]
    exact foldl_resolveStep_no_links fs p rest (acc ++ [n]) (by simpa using h) hl

theorem resolveWalk_no_links (fs : Fs) (p : CPath)
    (h : ∀ q : CPath, q <+: p → isHardLinkAt fs q = false) :
    resolveWalk fs p = p :=
  foldl_resolveStep_no_links fs p p [] (by simp) h

/-- C8 (amended): on the in-memory filesystem, canonicalizing an
already-canonical path (absolute, no `.`/`..` components) returns it
unchanged *provided no prefix of the path names a hard-link entry*; a
canonical path through a hard link is instead rewritten to the link's target
(see the counterexample `c8_cex`). -/
theorem c8_canonical_fixed (fs : Fs) (p : CPath)
    (h : ∀ n, n ≤ p.length → isHardLinkAt fs (p.take n) = false) :
    canonicalizeInner fs (cpathToComps p) true = .ok p := by
  have h' : ∀ q : CPath, q <+: p → isHardLinkAt fs q = false := by
    intro q hq
    have heq := List.prefix_iff_eq_take.mp hq
    rw [heq]
    exact h q.length hq.length_le
  simp only [canonicalizeInner, canonPure_cpathToComps, if_true]
  cases hw : wantsResolve fs p
  · simp
  · simp [resolveWalk_no_links fs p h']

/-- Witness for `c8_canonical_fixed`: a fresh filesystem and the canonical
path `/a`. -/
theorem c8_canonical_fixed_witness :
    canonicalizeInner initFs (cpathToComps ["a"]) true = .ok ["a"] :=
  c8_canonical_fixed initFs ["a"] (by decide)

/-! ## C6: overlay routing -/

/-- C6 (amended): for an overlay-domain path `p` (stripping to `sp`), every
single-path operation among exists, metadata, read, read_link,
read_to_string, symlink_metadata, remove_dir, remove_dir_all and remove_file
is served exclusively by the overlay (on the stripped path) when the overlay
reports `p` exists, and falls through to the base with the original
unstripped path when the overlay reports it does not (an error from the
overlay existence check propagates); `read_dir`, however, is *always* served
by the overlay on an overlay-domain path — the overlay's answer, error or
not, is returned and the base is never consulted. -/
theorem c6_routing {μB ρB σB υ μO ρO σO : Type}
    (B : Backend μB ρB σB υ) (O : Backend μO ρO σO υ)
    (mnt p sp : List Comp) (hstrip : stripMount mnt p = some sp) :
    (O.pathExists sp = .ok true →
      stackedExists B O mnt p = .ok true ∧
      stackedMetadata B O mnt p = (O.metadata sp).map (fun m => .overlay m mnt) ∧
      stackedRead B O mnt p = O.read sp ∧
      stackedReadLink B O mnt p = O.readLink sp ∧
      stackedReadToString B O mnt p = (O.readToString sp).map (fun s => .overlay s mnt) ∧
      stackedSymlinkMetadata B O mnt p = (O.symlinkMetadata sp).map (fun m => .overlay m mnt) ∧
      stackedRemoveDir B O mnt p = O.removeDir sp ∧
      stackedRemoveDirAll B O mnt p = O.removeDirAll sp ∧
      stackedRemoveFile B O mnt p = O.removeFile sp) ∧
    (O.pathExists sp = .ok false →
      stackedExists B O mnt p = B.pathExists p ∧
      stackedMetadata B O mnt p = (B.metadata p).map .base ∧
      stackedRead B O mnt p = B.read p ∧
      stackedReadLink B O mnt p = B.readLink p ∧
      stackedReadToString B O mnt p = (B.readToString p).map .base ∧
      stackedSymlinkMetadata B O mnt p = (B.symlinkMetadata p).map .base ∧
      stackedRemoveDir B O mnt p = B.removeDir p ∧
      stackedRemoveDirAll B O mnt p = B.removeDirAll p ∧
      stackedRemoveFile B O mnt p = B.removeFile p) ∧
    stackedReadDir B O mnt p = (O.readDir sp).map (fun d => .overlay d mnt) := by
  refine ⟨fun h => ?_, fun h => ?_, ?_⟩
  · simp [stackedExists, stackedMetadata, stackedRead, stackedReadLink, stackedReadToString,
      stackedSymlinkMetadata, stackedRemoveDir, stackedRemoveDirAll, stackedRemoveFile,
      hstrip, h]
  · simp [stackedExists, stackedMetadata, stackedRead, stackedReadLink, stackedReadToString,
      stackedSymlinkMetadata, stackedRemoveDir, stackedRemoveDirAll, stackedRemoveFile,
      hstrip, h]
  · simp [stackedReadDir, hstrip]

/-- Witness for `c6_routing`: two in-memory backends mounted at `/m`, with
the overlay owning `/d`, queried at `/m/d`. -/
theorem c6_routing_witness :
    stackedRead (memBackend c6Base) (memBackend c6OverlayD) mountM pathMD
      = (memBackend c6OverlayD).read [.normal "d"] ∧
    stackedReadDir (memBackend c6Base) (memBackend c6OverlayD) mountM pathMD
      = ((memBackend c6OverlayD).readDir [.normal "d"]).map
          (fun d => .overlay d mountM) := by
  have h := c6_routing (memBackend c6Base) (memBackend c6OverlayD) mountM pathMD
    [.normal "d"] (by decide)
  exact ⟨(h.1 (by decide)).2.2.1, h.2.2⟩

/-! ## C10: the readonly bit is stored but never enforced -/

theorem Entry.eraseP_type (e : Entry) : e.eraseP.type = e.type := rfl

theorem lookupList_mapErase (l : List (CPath × Entry)) (q : CPath) :
    lookupList (l.map (fun kv => (kv.1, kv.2.eraseP))) q
      = (lookupList l q).map Entry.eraseP := by
  induction l with
  | nil => simp [lookupList]
  | cons kv rest ih =>
    obtain ⟨k, e⟩ := kv
    by_cases hk : k = q
    · simp [lookupList, hk]
    · simp [lookupList, hk, ih]

theorem Fs.lookup_eraseP (fs : Fs) (q : CPath) :
    fs.eraseP.lookup q = (fs.lookup q).map Entry.eraseP :=
  lookupList_mapErase fs.files q

theorem removeList_mapErase (l : List (CPath × Entry)) (k : CPath) :
    removeList (l.map (fun kv => (kv.1, kv.2.eraseP))) k
      = (removeList l k).map (fun kv => (kv.1, kv.2.eraseP)) := by
  induction l with
  | nil => simp [removeList]
  | cons kv rest ih =>
    obtain ⟨k', e⟩ := kv
    by_cases hk : k' = k
    · simp [removeList, hk, ih]
    · simp [removeList, hk, ih]

theorem Fs.eraseP_insert (fs : Fs) (k : CPath) (e : Entry) :
    (fs.insert k e).eraseP = fs.eraseP.insert k e.eraseP := by
  simp [Fs.insert, Fs.eraseP, removeList_mapErase]

theorem Fs.eraseP_remove (fs : Fs) (k : CPath) :
    (fs.remove k).eraseP = fs.eraseP.remove k := by
  simp [Fs.remove, Fs.eraseP, removeList_mapErase]

theorem resolveStep_eraseP (fs : Fs) (cur : CPath) (n : String) :
    resolveStep fs.eraseP cur n = resolveStep fs cur n := by
  cases he : fs.lookup (cur ++ [n]) with
  | none => simp [resolveStep, Fs.lookup_eraseP, he]
  | some e =>
    cases ht : e.type <;> simp [resolveStep, Fs.lookup_eraseP, he, Entry.eraseP, ht]

theorem foldl_resolveStep_ext (fs fs' : Fs)
    (h : ∀ cur n, resolveStep fs' cur n = resolveStep fs cur n) :
    ∀ (ns : List String) (init : CPath),
      List.foldl (resolveStep fs') init ns = List.foldl (resolveStep fs) init ns
  | [], _ => rfl
  | n :: rest, init => by
    rw [List.foldl_cons, List.foldl_cons, h, foldl_resolveStep_ext fs fs' h rest _]

theorem wantsResolve_eraseP (fs : Fs) (buf : CPath) :
    wantsResolve fs.eraseP buf = wantsResolve fs buf := by
  cases he : fs.lookup buf with
  | none => simp [wantsResolve, Fs.lookup_eraseP, he]
  | some e =>
    cases ht : e.type <;> simp [wantsResolve, Fs.lookup_eraseP, he, Entry.eraseP, ht]

theorem resolveWalk_eraseP (fs : Fs) (buf : CPath) :
    resolveWalk fs.eraseP buf = resolveWalk fs buf :=
  foldl_resolveStep_ext fs fs.eraseP (resolveStep_eraseP fs) buf []

theorem canonicalizeInner_eraseP (fs : Fs) (comps : List Comp) (r : Bool) :
    canonicalizeInner fs.eraseP comps r = canonicalizeInner fs comps r := by
  cases hc : canonPure comps with
  | error e => simp [canonicalizeInner, hc]
  | ok buf =>
    cases r with
    | false => simp [canonicalizeInner, hc]
    | true =>
      cases hwr : wantsResolve fs buf <;>
        simp [canonicalizeInner, hc, wantsResolve_eraseP, hwr, resolveWalk_eraseP]

theorem fsExists_eraseP (fs : Fs) (comps : List Comp) :
    fsExists fs.eraseP comps = fsExists fs comps := by
  cases hc : canonicalizeInner fs comps true with
  | error e => simp [fsExists, canonicalizeInner_eraseP, hc]
  | ok p =>
    cases he : fs.lookup p <;>
      simp [fsExists, canonicalizeInner_eraseP, hc, Fs.contains, Fs.lookup_eraseP, he]

theorem fsRead_eraseP (fs : Fs) (comps : List Comp) :
    fsRead fs.eraseP comps = fsRead fs comps := by
  cases hc : canonicalizeInner fs comps true with
  | error e => simp [fsRead, canonicalizeInner_eraseP, hc]
  | ok p =>
    cases he : fs.lookup p with
    | none => simp [fsRead, canonicalizeInner_eraseP, hc, Fs.lookup_eraseP, he]
    | some e =>
      cases ht : e.type <;>
        simp [fsRead, canonicalizeInner_eraseP, hc, Fs.lookup_eraseP, he, Entry.eraseP, ht]

theorem fsMetadata_eraseP (fs : Fs) (comps : List Comp) :
    fsMetadata fs.eraseP comps
      = (fsMetadata fs comps).map (fun m => { m with readonly := false }) := by
  cases hc : canonicalizeInner fs comps true with
  | error e => simp [fsMetadata, canonicalizeInner_eraseP, hc, Except.map]
  | ok p =>
    cases he : fs.lookup p with
    | none => simp [fsMetadata, canonicalizeInner_eraseP, hc, Fs.lookup_eraseP, he, Except.map]
    | some e =>
      cases ht : e.type <;>
        simp [fsMetadata, canonicalizeInner_eraseP, hc, Fs.lookup_eraseP, he,
          Entry.metadata, Entry.eraseP, ht, Except.map]

theorem fsOpen_eraseP (now : Nat) (opts : OpenOptions) (fs : Fs) (comps : List Comp) :
    fsOpen now opts fs.eraseP comps
      = (fsOpen now opts fs comps).map (fun r => (r.1, r.2.eraseP)) := by
  unfold fsOpen
  simp only [canonicalizeInner_eraseP, fsExists_eraseP, Fs.lookup_eraseP]
  cases hc : canonicalizeInner fs comps true with
  | error e => rfl
  | ok p =>
    simp only []
    cases he : fs.lookup p with
    | none =>
      simp only [Option.map_none']
      cases hpp : parentOf p with
      | none =>
        repeat' split
        all_goals simp_all [Except.map]
      | some par =>
        cases hpe : fs.lookup par with
        | none =>
          simp only [hpe, Option.map_none']
          repeat' split
          all_goals simp_all [Except.map]
        | some pe =>
          cases htp : pe.type <;>
            simp only [hpe, Option.map_some', Entry.eraseP, htp] <;>
            repeat' split
          all_goals simp_all [Except.map, Fs.eraseP_insert, Entry.eraseP]
    | some e =>
      simp only [Option.map_some']
      cases ht : e.type <;> simp only [Entry.eraseP_type, ht, Entry.eraseP] <;>
        repeat' split
      all_goals simp_all [Except.map, Fs.eraseP_insert, Entry.eraseP]

theorem fileWrite_eraseP (h : OpenFile) (fs : Fs) (buf : List Nat) :
    fileWrite h fs.eraseP buf = (fileWrite h fs buf).map (fun r => (r.1, r.2.eraseP)) := by
  unfold fileWrite
  simp only [Fs.lookup_eraseP]
  cases hw : h.writeFlag with
  | false => simp [Except.map]
  | true =>
    simp only [hw]
    cases he : fs.lookup h.path with
    | none => simp [Except.map]
    | some e =>
      cases ht : e.type <;>
        simp [Option.map_some', Entry.eraseP, ht, Except.map, Fs.eraseP_insert]

theorem fsWrite_eraseP (now : Nat) (fs : Fs) (comps : List Comp) (b : List Nat) :
    fsWrite now fs.eraseP comps b = (fsWrite now fs comps b).map Fs.eraseP := by
  unfold fsWrite
  rw [fsOpen_eraseP]
  cases ho : fsOpen now { write := true, create := true, truncate := true } fs comps with
  | error e => rfl
  | ok r =>
    obtain ⟨h, fs1⟩ := r
    simp only [Except.map]
    rw [fileWrite_eraseP]
    cases hw : fileWrite h fs1 b with
    | error e => rfl
    | ok r2 => rfl

theorem fsRemoveFile_eraseP (fs : Fs) (comps : List Comp) :
    fsRemoveFile fs.eraseP comps = (fsRemoveFile fs comps).map Fs.eraseP := by
  unfold fsRemoveFile
  simp only [canonicalizeInner_eraseP, Fs.lookup_eraseP]
  cases hc : canonicalizeInner fs comps true with
  | error e => rfl
  | ok p =>
    simp only []
    cases he : fs.lookup p with
    | none => simp [Except.map]
    | some e =>
      cases ht : e.type with
      | directory ch => simp [Option.map_some', Entry.eraseP, ht, Except.map]
      | hardLink t => simp [Option.map_some', Entry.eraseP, ht, Except.map]
      | file d =>
        simp only [Option.map_some', Entry.eraseP, ht]
        cases hpp : parentOf p with
        | none => simp [Except.map, Fs.eraseP_remove]
        | some par =>
          cases hpe : fs.lookup par with
          | none => simp [hpe, Option.map_none', Except.map, Fs.eraseP_remove]
          | some pe =>
            cases htp : pe.type <;>
              simp [hpe, Option.map_some', Entry.eraseP, htp, Except.map,
                Fs.eraseP_remove, Fs.eraseP_insert]

theorem fsCopy_eraseP (now : Nat) (fs : Fs) (a b : List Comp) :
    fsCopy now fs.eraseP a b = (fsCopy now fs a b).map (fun r => (r.1, r.2.eraseP)) := by
  unfold fsCopy
  simp only [canonicalizeInner_eraseP, Fs.lookup_eraseP, Fs.contains, fsExists_eraseP]
  cases hca : canonicalizeInner fs a true with
  | error e => rfl
  | ok f =>
    simp only []
    cases hcb : canonicalizeInner fs b true with
    | error e => rfl
    | ok t =>
      simp only []
      cases he : fs.lookup f with
      | none => simp [Except.map]
      | some fe =>
        cases ht : fe.type with
        | directory ch => simp [Option.map_some', Entry.eraseP, ht, Except.map]
        | hardLink tg => simp [Option.map_some', Entry.eraseP, ht, Except.map]
        | file data =>
          simp only [Option.map_some', Entry.eraseP, ht]
          cases hpf : parentOf f with
          | none =>
            cases hpt : parentOf t <;>
              simp [hpf, hpt, Except.map, Fs.eraseP_insert, Entry.eraseP]
          | some fp =>
            cases hpt : parentOf t with
            | none => simp [hpf, hpt, Except.map, Fs.eraseP_insert, Entry.eraseP]
            | some tp =>
              simp only [hpf, hpt, Option.isSome_map']
              by_cases hb : (fs.lookup fp).isSome = true
              · cases hpe : fs.lookup tp with
                | none => simp [hb, hpe, Except.map]
                | some tpe =>
                  cases htp : tpe.type <;>
                    simp [hb, hpe, Option.map_some', Entry.eraseP, htp, Except.map,
                      Fs.eraseP_insert]
              · simp [hb, Except.map]

/-- C10: the in-memory filesystem stores but never enforces the readonly
bit. After `set_permissions` marks a path readonly (state `fs₁`), every
listed mutating operation — open (any flags, including write), writes
through a handle, `write(p, b)`, `remove_file`, `copy` — behaves on `fs₁`
exactly as on `fs₁.eraseP` (the same filesystem with every readonly bit
cleared): the outcomes agree up to the stored permission bits, so success
and failure are identical, as is all content read back; only `metadata`
reports the bit. -/
theorem c10_readonly_unenforced (now : Nat) (fs : Fs) (pc : List Comp) (ro : Bool) (fs₁ : Fs)
    (hset : fsSetPermissions now fs pc ro = .ok fs₁) :
    (∀ n opts c, fsOpen n opts fs₁.eraseP c
        = (fsOpen n opts fs₁ c).map (fun r => (r.1, r.2.eraseP))) ∧
    (∀ h b, fileWrite h fs₁.eraseP b
        = (fileWrite h fs₁ b).map (fun r => (r.1, r.2.eraseP))) ∧
    (∀ n c b, fsWrite n fs₁.eraseP c b = (fsWrite n fs₁ c b).map Fs.eraseP) ∧
    (∀ c, fsRemoveFile fs₁.eraseP c = (fsRemoveFile fs₁ c).map Fs.eraseP) ∧
    (∀ n a b, fsCopy n fs₁.eraseP a b
        = (fsCopy n fs₁ a b).map (fun r => (r.1, r.2.eraseP))) ∧
    (∀ c, fsRead fs₁.eraseP c = fsRead fs₁ c) ∧
    (∀ c, fsMetadata fs₁.eraseP c
        = (fsMetadata fs₁ c).map (fun m => { m with readonly := false })) :=
  ⟨fun n opts c => fsOpen_eraseP n opts fs₁ c,
   fun h b => fileWrite_eraseP h fs₁ b,
   fun n c b => fsWrite_eraseP n fs₁ c b,
   fun c => fsRemoveFile_eraseP fs₁ c,
   fun n a b => fsCopy_eraseP n fs₁ a b,
   fun c => fsRead_eraseP fs₁ c,
   fun c => fsMetadata_eraseP fs₁ c⟩

/-- Witness for `c10_readonly_unenforced`: `/f` marked readonly, then
written, removed and read. -/
theorem c10_readonly_unenforced_witness :
    fsWrite 0 c10fs1.eraseP pathF [2] = (fsWrite 0 c10fs1 pathF [2]).map Fs.eraseP ∧
    fsRemoveFile c10fs1.eraseP pathF = (fsRemoveFile c10fs1 pathF).map Fs.eraseP ∧
    fsRead c10fs1.eraseP pathF = fsRead c10fs1 pathF := by
  have h := c10_readonly_unenforced 0 c10fs pathF true c10fs1 (by decide)
  exact ⟨h.2.2.1 0 pathF [2], h.2.2.2.1 pathF, h.2.2.2.2.2.1 pathF⟩

theorem linkOf_congr (fs fs' : Fs) (q : CPath) (h : fs'.lookup q = fs.lookup q) :
    linkOf fs' q = linkOf fs q := by
  unfold linkOf
  rw [h]

theorem resolveStep_eq_linkOf (fs : Fs) (cur : CPath) (n : String) :
    resolveStep fs cur n = (linkOf fs (cur ++ [n])).getD (cur ++ [n]) := by
  cases he : fs.lookup (cur ++ [n]) with
  | none => simp [resolveStep, linkOf, he]
  | some e => cases ht : e.type <;> simp [resolveStep, linkOf, he, ht]

theorem resolveStep_ext_linkOf (fs fs' : Fs) (h : ∀ q, linkOf fs' q = linkOf fs q)
    (cur : CPath) (n : String) : resolveStep fs' cur n = resolveStep fs cur n := by
  rw [resolveStep_eq_linkOf, resolveStep_eq_linkOf, h]

theorem resolveWalk_ext_linkOf (fs fs' : Fs) (h : ∀ q, linkOf fs' q = linkOf fs q) (p : CPath) :
    resolveWalk fs' p = resolveWalk fs p :=
  foldl_resolveStep_ext fs fs' (resolveStep_ext_linkOf fs fs' h) p []

theorem wantsResolve_eq_false (fs : Fs) (buf : CPath) (h : wantsResolve fs buf = false) :
    ∃ e, fs.lookup buf = some e ∧ ∀ t, e.type ≠ .hardLink t := by
  cases he : fs.lookup buf with
  | none => simp [wantsResolve, he] at h
  | some e =>
    refine ⟨e, rfl, fun t hteq => ?_⟩
    simp [wantsResolve, he, hteq] at h

theorem wantsResolve_of_none (fs : Fs) (buf : CPath) (h : fs.lookup buf = none) :
    wantsResolve fs buf = true := by
  simp [wantsResolve, h]

theorem wantsResolve_of_link (fs : Fs) (buf : CPath) (e : Entry) (t : CPath)
    (he : fs.lookup buf = some e) (ht : e.type = .hardLink t) :
    wantsResolve fs buf = true := by
  simp [wantsResolve, he, ht]

theorem wantsResolve_of_nonlink (fs : Fs) (buf : CPath) (e : Entry)
    (he : fs.lookup buf = some e) (hnl : ∀ t, e.type ≠ .hardLink t) :
    wantsResolve fs buf = false := by
  cases ht : e.type with
  | hardLink t => exact absurd ht (hnl t)
  | file d => simp [wantsResolve, he, ht]
  | directory ch => simp [wantsResolve, he, ht]

theorem linkOf_of_link (fs : Fs) (buf : CPath) (e : Entry) (t : CPath)
    (he : fs.lookup buf = some e) (ht : e.type = .hardLink t) :
    linkOf fs buf = some t := by
  simp [linkOf, he, ht]

/-- Stability of (resolving) canonicalization under a state change that
preserves every hard-link fact, preserves existence away from the result
path, and leaves a non-link entry at the result path. -/
theorem canonicalize_stable (fs fs' : Fs) (comps : List Comp) (cp : CPath)
    (h1 : canonicalizeInner fs comps true = .ok cp)
    (h2 : ∀ q, linkOf fs' q = linkOf fs q)
    (h3 : ∀ q, q ≠ cp → (fs'.lookup q).isSome = (fs.lookup q).isSome)
    (h4 : ∃ e, fs'.lookup cp = some e ∧ ∀ t, e.type ≠ .hardLink t) :
    canonicalizeInner fs' comps true = .ok cp := by
  cases hb : canonPure comps with
  | error e => simp [canonicalizeInner, hb] at h1
  | ok buf =>
    simp only [canonicalizeInner, hb, if_true] at h1 ⊢
    obtain ⟨e', he', hnl'⟩ := h4
    cases hw : wantsResolve fs buf with
    | false =>
      rw [hw] at h1
      simp only [Bool.false_eq_true, if_false] at h1
      have hbc : buf = cp := by injection h1
      subst hbc
      rw [wantsResolve_of_nonlink fs' buf e' he' hnl']
      simp
    | true =>
      rw [hw, if_pos rfl] at h1
      have hwalk : resolveWalk fs buf = cp := by injection h1
      cases hw' : wantsResolve fs' buf with
      | true =>
        rw [if_pos rfl, resolveWalk_ext_linkOf fs fs' h2 buf, hwalk]
      | false =>
        obtain ⟨e2, he2, hnl2⟩ := wantsResolve_eq_false fs' buf hw'
        have hbc : buf = cp := by
          by_contra hne
          have hss := h3 buf hne
          rw [he2] at hss
          cases hfb : fs.lookup buf with
          | none => rw [hfb] at hss; cases hss
          | some e3 =>
            cases ht3 : e3.type with
            | hardLink t =>
              have hl' := (h2 buf).trans (linkOf_of_link fs buf e3 t hfb ht3)
              simp [linkOf, he2] at hl'
            | file d => simp [wantsResolve, hfb, ht3] at hw
            | directory ch => simp [wantsResolve, hfb, ht3] at hw
        subst hbc
        simp


theorem isDirAt_true_elim (fs : Fs) (q : CPath) (h : isDirAt fs q = true) :
    ∃ pe ch, fs.lookup q = some pe ∧ pe.type = .directory ch := by
  cases he : fs.lookup q with
  | none => simp [isDirAt, he] at h
  | some pe =>
    cases ht : pe.type with
    | directory ch => exact ⟨pe, ch, rfl, ht⟩
    | file d => simp [isDirAt, he, ht] at h
    | hardLink t => simp [isDirAt, he, ht] at h

theorem isFileOrAbsent_some (fs : Fs) (p : CPath) (e : Entry)
    (hfa : isFileOrAbsent fs p = true) (he : fs.lookup p = some e) :
    ∃ d, e.type = .file d := by
  cases ht : e.type with
  | file d => exact ⟨d, rfl⟩
  | directory ch => simp [isFileOrAbsent, he, ht] at hfa
  | hardLink t => simp [isFileOrAbsent, he, ht] at hfa

theorem writeAt_exact (data b : List Nat) (h : data.length = b.length) :
    writeAt data 0 b = b := by
  simp [writeAt, List.drop_eq_nil_of_le (Nat.le_of_eq h)]

theorem writeAt_fresh (b : List Nat) :
    writeAt (if 0 < b.length then List.replicate b.length 0 else []) 0 b = b := by
  cases b with
  | nil => simp [writeAt]
  | cons x xs =>
    rw [if_pos (by simp)]
    exact writeAt_exact _ _ (by simp)

theorem parentOf_ne_nil (p : CPath) (h : p ≠ []) : parentOf p = some p.dropLast := by
  cases p with
  | nil => exact absurd rfl h
  | cons a l => rfl

theorem dropLast_ne_self (p : CPath) (h : p ≠ []) : p.dropLast ≠ p := by
  intro heq
  have hl := congrArg List.length heq
  rw [List.length_dropLast] at hl
  cases p with
  | nil => exact h rfl
  | cons a l => simp at hl

/-- C1 (amended): on the in-memory filesystem, for every path p that
canonicalizes (with hard-link resolution) to a non-root path cp whose parent
exists as a directory, and such that cp is absent or holds a regular file
(not a directory and not a hard-link entry), and for every byte sequence b
(empty sequences and NUL bytes included — bytes are plain list elements),
write(p, b) succeeds and a following read(p) returns exactly b. -/
theorem c1_write_read (now : Nat) (fs : Fs) (comps : List Comp) (b : List Nat) (cp : CPath)
    (hc : canonicalizeInner fs comps true = .ok cp)
    (hne : cp ≠ [])
    (hpar : isDirAt fs cp.dropLast = true)
    (hfa : isFileOrAbsent fs cp = true) :
    ∃ fs', fsWrite now fs comps b = .ok fs' ∧ fsRead fs' comps = .ok b := by
  obtain ⟨pe, pch, hpe, hpt⟩ := isDirAt_true_elim fs cp.dropLast hpar
  cases he : fs.lookup cp with
  | some entry =>
    obtain ⟨d, htd⟩ := isFileOrAbsent_some fs cp entry hfa he
    have hopen : fsOpen now { write := true, create := true, truncate := true } fs comps
        = .ok (⟨cp, true, false, 0⟩, fs.insert cp { entry with type := .file [] }) := by
      simp [fsOpen, hc, he, htd]
    have hwrite : fileWrite ⟨cp, true, false, 0⟩
          (fs.insert cp { entry with type := .file [] }) b
        = .ok (⟨cp, true, false, 0 + b.length⟩,
            (fs.insert cp { entry with type := .file [] }).insert cp
              { entry with type := .file b }) := by
      simp only [fileWrite, Fs.lookup_insert, if_pos rfl]
      simp [writeAt_fresh]
    refine ⟨(fs.insert cp { entry with type := .file [] }).insert cp
      { entry with type := .file b }, ?_, ?_⟩
    · simp only [fsWrite, hopen, hwrite]
    · have h2 : ∀ q, linkOf ((fs.insert cp { entry with type := .file [] }).insert cp
          { entry with type := .file b }) q = linkOf fs q := by
        intro q
        by_cases hq : q = cp
        · subst hq
          simp [linkOf, Fs.lookup_insert, he, htd]
        · exact linkOf_congr _ _ _
            (by rw [Fs.lookup_insert, if_neg hq, Fs.lookup_insert, if_neg hq])
      have h3 : ∀ q, q ≠ cp →
          (((fs.insert cp { entry with type := .file [] }).insert cp
            { entry with type := .file b }).lookup q).isSome = (fs.lookup q).isSome := by
        intro q hq
        rw [Fs.lookup_insert, if_neg hq, Fs.lookup_insert, if_neg hq]
      have h4 : ∃ e, ((fs.insert cp { entry with type := .file [] }).insert cp
          { entry with type := .file b }).lookup cp = some e ∧ ∀ t, e.type ≠ .hardLink t :=
        ⟨{ entry with type := .file b }, by rw [Fs.lookup_insert, if_pos rfl],
          fun t h => by cases h⟩
      have hstab := canonicalize_stable fs _ comps cp hc h2 h3 h4
      simp [fsRead, hstab, Fs.lookup_insert]
  | none =>
    have hopen : fsOpen now { write := true, create := true, truncate := true } fs comps
        = .ok (⟨cp, true, false, 0⟩,
            (fs.insert cp.dropLast
              { pe with type := .directory (childInsert pch (fileNameOf cp)) }).insert cp
              ⟨.file [], now, none, none, false⟩) := by
      simp [fsOpen, hc, he, parentOf_ne_nil cp hne, hpe, hpt]
    have hwrite : fileWrite ⟨cp, true, false, 0⟩
          ((fs.insert cp.dropLast
            { pe with type := .directory (childInsert pch (fileNameOf cp)) }).insert cp
            ⟨.file [], now, none, none, false⟩) b
        = .ok (⟨cp, true, false, 0 + b.length⟩,
            (((fs.insert cp.dropLast
              { pe with type := .directory (childInsert pch (fileNameOf cp)) }).insert cp
              ⟨.file [], now, none, none, false⟩)).insert cp
              ⟨.file b, now, none, none, false⟩) := by
      simp only [fileWrite, Fs.lookup_insert, if_pos rfl]
      simp [writeAt_fresh]
    have hparne := dropLast_ne_self cp hne
    refine ⟨(((fs.insert cp.dropLast
        { pe with type := .directory (childInsert pch (fileNameOf cp)) }).insert cp
        ⟨.file [], now, none, none, false⟩)).insert cp
        ⟨.file b, now, none, none, false⟩, ?_, ?_⟩
    · simp only [fsWrite, hopen, hwrite]
    · have h2 : ∀ q, linkOf ((((fs.insert cp.dropLast
          { pe with type := .directory (childInsert pch (fileNameOf cp)) }).insert cp
          ⟨.file [], now, none, none, false⟩)).insert cp
          ⟨.file b, now, none, none, false⟩) q = linkOf fs q := by
        intro q
        by_cases hq : q = cp
        · subst hq
          simp [linkOf, Fs.lookup_insert, he]
        · by_cases hq2 : q = cp.dropLast
          · subst hq2
            simp [linkOf, Fs.lookup_insert, if_neg hq, hpe, hpt]
          · exact linkOf_congr _ _ _
              (by rw [Fs.lookup_insert, if_neg hq, Fs.lookup_insert, if_neg hq,
                Fs.lookup_insert, if_neg hq2])
      have h3 : ∀ q, q ≠ cp →
          (((((fs.insert cp.dropLast
            { pe with type := .directory (childInsert pch (fileNameOf cp)) }).insert cp
            ⟨.file [], now, none, none, false⟩)).insert cp
            ⟨.file b, now, none, none, false⟩).lookup q).isSome = (fs.lookup q).isSome := by
        intro q hq
        rw [Fs.lookup_insert, if_neg hq, Fs.lookup_insert, if_neg hq, Fs.lookup_insert]
        by_cases hq2 : q = cp.dropLast
        · subst hq2
          rw [if_pos rfl, hpe]
          rfl
        · rw [if_neg hq2]
      have h4 : ∃ e, ((((fs.insert cp.dropLast
          { pe with type := .directory (childInsert pch (fileNameOf cp)) }).insert cp
          ⟨.file [], now, none, none, false⟩)).insert cp
          ⟨.file b, now, none, none, false⟩).lookup cp = some e ∧ ∀ t, e.type ≠ .hardLink t :=
        ⟨⟨.file b, now, none, none, false⟩, by rw [Fs.lookup_insert, if_pos rfl],
          fun t h => by cases h⟩
      have hstab := canonicalize_stable fs _ comps cp hc h2 h3 h4
      simp [fsRead, hstab, Fs.lookup_insert]

/-- Witness for `c1_write_read`: writing `[0, 255]` to `/f` on a fresh
filesystem and reading it back. -/
theorem c1_write_read_witness :
    ∃ fs', fsWrite 0 initFs pathF [0, 255] = .ok fs' ∧ fsRead fs' pathF = .ok [0, 255] :=
  c1_write_read 0 initFs pathF [0, 255] ["f"] (by decide) (by decide) (by decide) (by decide)

theorem lookupList_mem (l : List (CPath × Entry)) (q : CPath) (e : Entry)
    (h : lookupList l q = some e) : (q, e) ∈ l := by
  induction l with
  | nil => simp [lookupList] at h
  | cons kv rest ih =>
    obtain ⟨k, e'⟩ := kv
    by_cases hk : k = q
    · subst hk
      simp [lookupList] at h
      subst h
      exact List.mem_cons_self _ _
    · simp [lookupList, hk] at h
      exact List.mem_cons_of_mem _ (ih h)

theorem inv1_parent (fs : Fs) (hinv : Inv1 fs) (k : CPath) (e : Entry)
    (h : fs.lookup k = some e) (hk : k ≠ []) : isDirAt fs k.dropLast = true :=
  hinv (k, e) (lookupList_mem fs.files k e h) hk

theorem prefix_dropLast_of_proper (q k : CPath) (hq : q <+: k) (hne : q ≠ k) :
    q <+: k.dropLast := by
  have hlen : q.length < k.length :=
    lt_of_le_of_ne hq.length_le (fun h => hne (hq.eq_of_length h))
  have htake := List.prefix_iff_eq_take.mp hq
  rw [htake, List.dropLast_eq_take]
  rw [show q.length = min q.length (k.length - 1) by omega, ← List.take_take]
  exact List.take_prefix _ _

theorem prefix_dirs_aux (fs : Fs) (hinv : Inv1 fs) :
    ∀ (n : Nat) (k : CPath), k.length ≤ n → (∃ e, fs.lookup k = some e) →
      ∀ q, q <+: k → q ≠ [] → q ≠ k → isDirAt fs q = true := by
  intro n
  induction n with
  | zero =>
    intro k hk _ q hq hne hneq
    have hk0 : k = [] := List.length_eq_zero.mp (Nat.le_zero.mp hk)
    subst hk0
    exact absurd (List.prefix_nil.mp hq) hne
  | succ n ih =>
    rintro k hk ⟨e, he⟩ q hq hne hneq
    have hkne : k ≠ [] := by
      rintro rfl
      exact hne (List.prefix_nil.mp hq)
    have hdir := inv1_parent fs hinv k e he hkne
    by_cases hq2 : q = k.dropLast
    · rw [hq2]
      exact hdir
    · have hqd : q <+: k.dropLast := prefix_dropLast_of_proper q k hq hneq
      obtain ⟨pe, ch, hpe, _⟩ := isDirAt_true_elim fs k.dropLast hdir
      have hlen : k.dropLast.length ≤ n := by
        rw [List.length_dropLast]
        omega
      exact ih k.dropLast hlen ⟨pe, hpe⟩ q hqd hne hq2

/-- Under the parent invariant, every strict ancestor of a table key is a
directory entry. -/
theorem prefix_dirs (fs : Fs) (hinv : Inv1 fs) (k : CPath) (e : Entry)
    (he : fs.lookup k = some e) :
    ∀ q, q <+: k → q ≠ [] → q ≠ k → isDirAt fs q = true :=
  prefix_dirs_aux fs hinv k.length k le_rfl ⟨e, he⟩

theorem no_key_extends_aux (fs : Fs) (hinv : Inv1 fs) (c : CPath)
    (hc : fs.lookup c = none) :
    ∀ (n : Nat) (k : CPath), k.length ≤ n → c <+: k → fs.lookup k = none := by
  intro n
  induction n with
  | zero =>
    intro k hk hpre
    have hk0 : k = [] := List.length_eq_zero.mp (Nat.le_zero.mp hk)
    subst hk0
    have : c = [] := List.prefix_nil.mp hpre
    subst this
    exact hc
  | succ n ih =>
    intro k hk hpre
    by_cases hkc : k = c
    · subst hkc
      exact hc
    · cases he : fs.lookup k with
      | none => rfl
      | some e =>
        exfalso
        have hkne : k ≠ [] := by
          rintro rfl
          exact hkc (List.prefix_nil.mp hpre).symm
        have hdir := inv1_parent fs hinv k e he hkne
        obtain ⟨pe, ch, hpe, _⟩ := isDirAt_true_elim fs k.dropLast hdir
        have hpd : c <+: k.dropLast :=
          prefix_dropLast_of_proper c k hpre (fun h => hkc h.symm)
        have hlen : k.dropLast.length ≤ n := by
          rw [List.length_dropLast]
          omega
        rw [ih k.dropLast hlen hpd] at hpe
        cases hpe

/-- Under the parent invariant, no key of the table extends an absent
path. -/
theorem no_key_extends (fs : Fs) (hinv : Inv1 fs) (c : CPath)
    (hc : fs.lookup c = none) (k : CPath) (hpre : c <+: k) : fs.lookup k = none :=
  no_key_extends_aux fs hinv c hc k.length k le_rfl hpre


theorem foldl_resolveStep_frozen (fs : Fs) (cl : CPath)
    (hnone : ∀ k, cl <+: k → fs.lookup k = none) :
    ∀ (ns : List String) (c : CPath), cl <+: c →
      cl <+: List.foldl (resolveStep fs) c ns
  | [], _, h => h
  | n :: rest, c, h => by
    have hstep : resolveStep fs c n = c ++ [n] := by
      rw [resolveStep_eq_linkOf]
      have hlk : fs.lookup (c ++ [n]) = none := hnone _ (h.trans ⟨[n], rfl⟩)
      simp [linkOf, hlk]
    rw [List.foldl_cons, hstep]
    exact foldl_resolveStep_frozen fs cl hnone rest (c ++ [n]) (h.trans ⟨[n], rfl⟩)

theorem foldl_resolveStep_cases (fs fs' : Fs) (cl : CPath)
    (hstep : ∀ cur n, cur ++ [n] ≠ cl → resolveStep fs' cur n = resolveStep fs cur n)
    (hnone : ∀ k, cl <+: k → fs.lookup k = none) :
    ∀ (ns : List String) (init : CPath),
      List.foldl (resolveStep fs') init ns = List.foldl (resolveStep fs) init ns ∨
      cl <+: List.foldl (resolveStep fs) init ns
  | [], _ => Or.inl rfl
  | n :: rest, init => by
    by_cases hcl : init ++ [n] = cl
    · right
      have hstepf : resolveStep fs init n = cl := by
        rw [resolveStep_eq_linkOf, hcl]
        simp [linkOf, hnone cl (List.prefix_refl cl)]
      rw [List.foldl_cons, hstepf]
      exact foldl_resolveStep_frozen fs cl hnone rest cl (List.prefix_refl cl)
    · rw [List.foldl_cons, List.foldl_cons, hstep init n hcl]
      exact foldl_resolveStep_cases fs fs' cl hstep hnone rest (resolveStep fs init n)

theorem foldl_resolveStep_to_link (fs : Fs) (p t : CPath) (hl : linkOf fs p = some t)
    (hd : ∀ q, q <+: p → q ≠ p → q ≠ [] → isDirAt fs q = true) :
    ∀ (ns acc : List String), acc ++ ns = p → ns ≠ [] →
      List.foldl (resolveStep fs) acc ns = t
  | [], _, _, hne => absurd rfl hne
  | [n], acc, h, _ => by
    have hstep : resolveStep fs acc n = t := by
      rw [resolveStep_eq_linkOf, show acc ++ [n] = p from h, hl]
      rfl
    simp [hstep]
  | n :: m :: rest, acc, h, _ => by
    have hpre : (acc ++ [n]) <+: p := ⟨m :: rest, by simpa using h⟩
    have hneq : acc ++ [n] ≠ p := by
      intro heq
      have hle := congrArg List.length heq
      rw [← h] at hle
      simp at hle
    have hnn : acc ++ [n] ≠ [] := by simp
    have hdir := hd (acc ++ [n]) hpre hneq hnn
    obtain ⟨pe, ch, hpe, hpt⟩ := isDirAt_true_elim fs _ hdir
    have hstep : resolveStep fs acc n = acc ++ [n] := by
      rw [resolveStep_eq_linkOf]
      simp [linkOf, hpe, hpt]
    rw [List.foldl_cons, hstep]
    exact foldl_resolveStep_to_link fs p t hl hd (m :: rest) (acc ++ [n])
      (by simpa using h) (by simp)

/-- Resolution of a path whose strict ancestors are directories and whose
final entry is a hard link lands on the link's target. -/
theorem resolveWalk_to_link (fs : Fs) (p t : CPath) (hp : p ≠ [])
    (hl : linkOf fs p = some t)
    (hd : ∀ q, q <+: p → q ≠ p → q ≠ [] → isDirAt fs q = true) :
    resolveWalk fs p = t :=
  foldl_resolveStep_to_link fs p t hl hd p [] (by simp) hp


/-- Stability of resolving canonicalization when a hard-link entry is added
at a previously absent path `cl` (and the rest of the state keeps its
existence and hard-link facts). -/
theorem canonicalize_insert_link (fs fs' : Fs) (comps : List Comp) (co cl : CPath)
    (hinv : Inv1 fs)
    (hc : canonicalizeInner fs comps true = .ok co)
    (hsome_co : (fs.lookup co).isSome = true)
    (hclnone : fs.lookup cl = none)
    (hstep : ∀ cur n, cur ++ [n] ≠ cl → resolveStep fs' cur n = resolveStep fs cur n)
    (hsome : ∀ q, q ≠ cl → (fs'.lookup q).isSome = (fs.lookup q).isSome)
    (hlinkpres : ∀ q, q ≠ cl → linkOf fs' q = linkOf fs q)
    (hcl' : ∃ le t, fs'.lookup cl = some le ∧ le.type = .hardLink t) :
    canonicalizeInner fs' comps true = .ok co := by
  have hnone : ∀ k, cl <+: k → fs.lookup k = none := no_key_extends fs hinv cl hclnone
  cases hb : canonPure comps with
  | error e => simp [canonicalizeInner, hb] at hc
  | ok buf =>
    simp only [canonicalizeInner, hb, if_true] at hc ⊢
    cases hw : wantsResolve fs buf with
    | false =>
      rw [hw] at hc
      simp only [Bool.false_eq_true, if_false] at hc
      have hbc : buf = co := by injection hc
      subst hbc
      obtain ⟨e0, he0, hnl0⟩ := wantsResolve_eq_false fs buf hw
      have hbufne : buf ≠ cl := by
        intro h
        rw [h, hclnone] at he0
        cases he0
      have hs := hsome buf hbufne
      rw [he0] at hs
      cases he' : fs'.lookup buf with
      | none => rw [he'] at hs; cases hs
      | some e' =>
        have hlp := hlinkpres buf hbufne
        have hlnone : linkOf fs buf = none := by
          cases ht0 : e0.type with
          | hardLink t => exact absurd ht0 (hnl0 t)
          | file d => simp [linkOf, he0, ht0]
          | directory ch => simp [linkOf, he0, ht0]
        rw [hlnone] at hlp
        have hnl' : ∀ t, e'.type ≠ .hardLink t := by
          intro t ht
          rw [linkOf_of_link fs' buf e' t he' ht] at hlp
          cases hlp
        rw [wantsResolve_of_nonlink fs' buf e' he' hnl']
        simp
    | true =>
      rw [hw, if_pos rfl] at hc
      have hwalk : resolveWalk fs buf = co := by injection hc
      cases hw' : wantsResolve fs' buf with
      | true =>
        rw [if_pos rfl]
        rcases foldl_resolveStep_cases fs fs' cl hstep hnone buf [] with heq | hext
        · rw [show resolveWalk fs' buf = resolveWalk fs buf from heq, hwalk]
        · exfalso
          have hext2 : cl <+: co := by
            rw [show List.foldl (resolveStep fs) [] buf = resolveWalk fs buf from rfl, hwalk] at hext
            exact hext
          have hco0 := hnone co hext2
          rw [hco0] at hsome_co
          cases hsome_co
      | false =>
        obtain ⟨e2, he2, hnl2⟩ := wantsResolve_eq_false fs' buf hw'
        have hbufne : buf ≠ cl := by
          intro h
          obtain ⟨le, t, hle, hlt⟩ := hcl'
          rw [h, hle] at he2
          injection he2 with he2e
          subst he2e
          exact hnl2 t hlt
        have hs := hsome buf hbufne
        rw [he2] at hs
        cases he3 : fs.lookup buf with
        | none => rw [he3] at hs; cases hs
        | some e3 =>
          cases ht3 : e3.type with
          | hardLink t =>
            have hlp := hlinkpres buf hbufne
            rw [linkOf_of_link fs buf e3 t he3 ht3] at hlp
            cases ht2 : e2.type with
            | hardLink t2 => exact absurd ht2 (hnl2 t2)
            | file d => exact absurd hlp (by simp [linkOf, he2, ht2])
            | directory ch => exact absurd hlp (by simp [linkOf, he2, ht2])
          | file d => simp [wantsResolve, he3, ht3] at hw
          | directory ch => simp [wantsResolve, he3, ht3] at hw


theorem contains_false_lookup (fs : Fs) (q : CPath) (h : fs.contains q = false) :
    fs.lookup q = none := by
  unfold Fs.contains at h
  cases hl : fs.lookup q with
  | none => rfl
  | some e => rw [hl] at h; cases h

theorem isDirAt_congr (fs fs' : Fs) (q : CPath) (h : fs'.lookup q = fs.lookup q) :
    isDirAt fs' q = isDirAt fs q := by
  unfold isDirAt
  rw [h]

theorem canonPure_of_inner_false (fs : Fs) (comps : List Comp) (c : CPath)
    (h : canonicalizeInner fs comps false = .ok c) : canonPure comps = .ok c := by
  cases hb : canonPure comps with
  | error e => simp [canonicalizeInner, hb] at h
  | ok buf =>
    simp [canonicalizeInner, hb] at h
    rw [h]

/-- C5 (amended): on the in-memory filesystem, in any state satisfying the
spec's parent-directory invariant, after hard_link(original, link) succeeds
every read and metadata call on link returns results identical to the same
call on original (both resolve to the same canonical target); but a
subsequent remove_file(link) resolves the hard link and removes the
*original* file's table entry — the dangling link entry survives while the
original is gone, rather than only the link being removed. -/
theorem c5_hardlink (now : Nat) (fs fs' : Fs) (ocomps lcomps : List Comp) (co cl : CPath)
    (hinv : Inv1 fs)
    (hco : canonicalizeInner fs ocomps true = .ok co)
    (hcl : canonicalizeInner fs lcomps false = .ok cl)
    (hlink : fsHardLink now fs ocomps lcomps = .ok fs') :
    fsRead fs' lcomps = fsRead fs' ocomps ∧
    fsMetadata fs' lcomps = fsMetadata fs' ocomps ∧
    (∀ ce d, fs.lookup co = some ce → ce.type = .file d →
      ∃ fs'', fsRemoveFile fs' lcomps = .ok fs'' ∧
        fs''.lookup co = none ∧ fs''.lookup cl ≠ none) := by
  simp only [fsHardLink, hco, hcl] at hlink
  cases hcnt : fs.contains co with
  | false => rw [hcnt] at hlink; simp at hlink
  | true =>
    rw [hcnt, if_neg (by simp)] at hlink
    cases hclc : fs.contains cl with
    | true => rw [hclc, if_pos rfl] at hlink; simp at hlink
    | false =>
      rw [hclc, if_neg (by simp)] at hlink
      cases hpl : parentOf cl with
      | none => simp only [hpl] at hlink; simp at hlink
      | some lp =>
        simp only [hpl] at hlink
        cases hlpe : fs.lookup lp with
        | none => simp only [hlpe] at hlink; simp at hlink
        | some lpe =>
          simp only [hlpe] at hlink
          cases hlpt : lpe.type with
          | file d0 => simp only [hlpt] at hlink; simp at hlink
          | hardLink t0 => simp only [hlpt] at hlink; simp at hlink
          | directory ch =>
            simp only [hlpt] at hlink
            have hfs' : fs' = (fs.insert lp
                { lpe with type := .directory (childInsert ch (fileNameOf cl)) }).insert cl
                ⟨.hardLink co, now, some now, none, false⟩ := by
              injection hlink with h
              exact h.symm
            have hclnone : fs.lookup cl = none := contains_false_lookup fs cl hclc
            have hclne : cl ≠ [] := by
              intro h
              subst h
              simp [parentOf] at hpl
            have hlpeq : lp = cl.dropLast := by
              rw [parentOf_ne_nil cl hclne] at hpl
              injection hpl with h
              exact h.symm
            have hcone : co ≠ cl := by
              intro h
              rw [Fs.contains, h, hclnone] at hcnt
              cases hcnt
            have hlplook : fs.lookup lp = some lpe := hlpe
            have hcolp : lp ≠ cl := by
              intro h
              rw [h, hclnone] at hlplook
              cases hlplook
            have hlook : ∀ q, fs'.lookup q =
                if q = cl then some ⟨.hardLink co, now, some now, none, false⟩
                else if q = lp then
                  some { lpe with type := .directory (childInsert ch (fileNameOf cl)) }
                else fs.lookup q := by
              intro q
              rw [hfs', Fs.lookup_insert, Fs.lookup_insert]
            have hsome : ∀ q, q ≠ cl → (fs'.lookup q).isSome = (fs.lookup q).isSome := by
              intro q hq
              rw [hlook q, if_neg hq]
              by_cases hq2 : q = lp
              · rw [if_pos hq2, hq2, hlpe]
                rfl
              · rw [if_neg hq2]
            have hlinkpres : ∀ q, q ≠ cl → linkOf fs' q = linkOf fs q := by
              intro q hq
              by_cases hq2 : q = lp
              · subst hq2
                have h1 : fs'.lookup q = some
                    { lpe with type := .directory (childInsert ch (fileNameOf cl)) } := by
                  rw [hlook q, if_neg hq, if_pos rfl]
                simp [linkOf, h1, hlpe, hlpt]
              · exact linkOf_congr _ _ _ (by rw [hlook q, if_neg hq, if_neg hq2])
            have hstep : ∀ cur n, cur ++ [n] ≠ cl →
                resolveStep fs' cur n = resolveStep fs cur n := by
              intro cur n hne
              rw [resolveStep_eq_linkOf, resolveStep_eq_linkOf, hlinkpres _ hne]
            have hcllook : fs'.lookup cl = some ⟨.hardLink co, now, some now, none, false⟩ := by
              rw [hlook cl, if_pos rfl]
            have hcano : canonicalizeInner fs' ocomps true = .ok co :=
              canonicalize_insert_link fs fs' ocomps co cl hinv hco hcnt hclnone hstep
                hsome hlinkpres ⟨_, co, hcllook, rfl⟩
            have hdirs' : ∀ q, q <+: cl → q ≠ cl → q ≠ [] → isDirAt fs' q = true := by
              intro q hq hqne hqnn
              by_cases hq2 : q = lp
              · subst hq2
                unfold isDirAt
                rw [hlook q, if_neg hqne, if_pos rfl]
              · have hqd : q <+: lp := hlpeq ▸ prefix_dropLast_of_proper q cl hq hqne
                have hfsq := prefix_dirs fs hinv lp lpe hlpe q hqd hqnn hq2
                rw [isDirAt_congr fs fs' q (by rw [hlook q, if_neg hqne, if_neg hq2])]
                exact hfsq
            have hcanl : canonicalizeInner fs' lcomps true = .ok co := by
              have hpure := canonPure_of_inner_false fs lcomps cl hcl
              simp only [canonicalizeInner, hpure, if_true]
              rw [wantsResolve_of_link fs' cl _ co hcllook rfl, if_pos rfl]
              rw [resolveWalk_to_link fs' cl co hclne (linkOf_of_link fs' cl _ co hcllook rfl)
                hdirs']
            refine ⟨?_, ?_, ?_⟩
            · simp only [fsRead, hcanl, hcano]
            · simp only [fsMetadata, hcanl, hcano]
            · intro ce d hce htf
              have hcolp2 : co ≠ lp := by
                intro h
                rw [h, hlplook] at hce
                injection hce with h2
                rw [h2, htf] at hlpt
                cases hlpt
              have hcoentry : fs'.lookup co = some ce := by
                rw [hlook co, if_neg hcone, if_neg hcolp2]
                exact hce
              have hclkeep : ∀ fsx : Fs, fsx.lookup cl ≠ none →
                  (fsx.remove co).lookup cl ≠ none := by
                intro fsx h
                rw [Fs.lookup_remove, if_neg (fun hx : cl = co => hcone hx.symm)]
                exact h
              cases hpc : parentOf co with
              | none =>
                refine ⟨fs'.remove co, ?_, ?_, ?_⟩
                · simp only [fsRemoveFile, hcanl, hcoentry, htf, hpc]
                · rw [Fs.lookup_remove, if_pos rfl]
                · exact hclkeep fs' (by rw [hcllook]; intro h; cases h)
              | some cop =>
                cases hpce : fs'.lookup cop with
                | none =>
                  refine ⟨fs'.remove co, ?_, ?_, ?_⟩
                  · simp only [fsRemoveFile, hcanl, hcoentry, htf, hpc, hpce]
                  · rw [Fs.lookup_remove, if_pos rfl]
                  · exact hclkeep fs' (by rw [hcllook]; intro h; cases h)
                | some cpe =>
                  cases hcpt : cpe.type with
                  | directory cch =>
                    refine ⟨(fs'.insert cop
                        { cpe with type := .directory (childRemove cch (fileNameOf co)) }).remove co,
                      ?_, ?_, ?_⟩
                    · simp only [fsRemoveFile, hcanl, hcoentry, htf, hpc, hpce, hcpt]
                    · rw [Fs.lookup_remove, if_pos rfl]
                    · refine hclkeep _ ?_
                      rw [Fs.lookup_insert]
                      by_cases hcc : cl = cop
                      · rw [if_pos hcc]
                        intro h
                        cases h
                      · rw [if_neg hcc, hcllook]
                        intro h
                        cases h
                  | file d2 =>
                    refine ⟨fs'.remove co, ?_, ?_, ?_⟩
                    · simp only [fsRemoveFile, hcanl, hcoentry, htf, hpc, hpce, hcpt]
                    · rw [Fs.lookup_remove, if_pos rfl]
                    · exact hclkeep fs' (by rw [hcllook]; intro h; cases h)
                  | hardLink t2 =>
                    refine ⟨fs'.remove co, ?_, ?_, ?_⟩
                    · simp only [fsRemoveFile, hcanl, hcoentry, htf, hpc, hpce, hcpt]
                    · rw [Fs.lookup_remove, if_pos rfl]
                    · exact hclkeep fs' (by rw [hcllook]; intro h; cases h)

/-- Witness for `c5_hardlink`: `/f` holding `[1, 2]`, hard-linked from
`/l`, then removed through the link. -/
theorem c5_hardlink_witness :
    fsRead c5fsAfter pathL = fsRead c5fsAfter pathF ∧
    (∃ fs'', fsRemoveFile c5fsAfter pathL = .ok fs'' ∧
      fs''.lookup ["f"] = none ∧ fs''.lookup ["l"] ≠ none) := by
  have h := c5_hardlink 0 c5fs c5fsAfter pathF pathL ["f"] ["l"]
    (by decide) (by decide) (by decide) (by decide)
  exact ⟨h.1, h.2.2 (fileE [1, 2]) [1, 2] (by decide) rfl⟩

/-- C3: the claim states the root entry survives every public operation, and
the code clearly intends this (`remove_dir`/`remove_dir_all` refuse the root
with an explicit error), but `rename` has no such guard: on a fresh
filesystem `rename("/", "/x")` succeeds and afterwards the table no longer
contains the root entry. -/
theorem c3_root_removed :
    (fsRename 0 initFs pathRoot pathX).map (fun f => f.lookup []) = .ok none := by
  decide

/-- C4: the claim states every directory's child-name set matches the last
components of the keys below it, in particular after a same-parent rename;
but `rename` skips both parent child-set updates whenever source and
destination share a parent. After `create_dir /d`, `write /d/z`,
`rename /d/z /d/y` (which succeeds), `/d` still lists child `"z"` while the
table holds the key `/d/y` — and `"y"` is missing from the child set. -/
theorem c4_child_set_stale :
    (do
      let a ← fsCreateDir 0 initFs pathD
      let b ← fsWrite 0 a pathDZ [1]
      (fsRename 0 b pathDZ pathDY : Except ErrKind Fs)).map
        (fun f => (childrenOf f ["d"], f.contains ["d", "y"], f.contains ["d", "z"]))
      = .ok (["z"], true, false) ∧ "y" ∉ ["z"] := by
  constructor
  · decide
  · decide

/-- C2: the claim states a successful `rename(a, b)` relocates every
descendant of a directory. Continuing the C4 trace with `create_dir /d/z`
(legal, since the stale child `"z"` has no entry) and then `rename /d /e`:
the rename succeeds, `exists(/d)` is false and `exists(/e)` is true, but the
descendant `/d/y` — readable as `[1]` immediately before the call — is not
reachable as `/e/y` (it is left behind under the old prefix), because the
earlier same-parent rename never updated `/d`'s child set. -/
theorem c2_rename_loses_descendant :
    (do
      let a ← fsCreateDir 0 initFs pathD
      let b ← fsWrite 0 a pathDZ [1]
      let c ← fsRename 0 b pathDZ pathDY
      let d ← fsCreateDir 0 c pathDZ
      (pure (fsRead d pathDY,
        (fsRename 0 d pathD pathE).map
          (fun g => (fsExists g pathD, fsExists g pathE, fsRead g pathEY, g.contains ["d", "y"]))) :
        Except ErrKind _))
      = .ok (.ok [1], .ok (.ok false, .ok true, .error .notFound, true)) := by
  rfl

/-- C1 counterexample: the claim quantifies over every path whose parent
directory exists, but a path naming an existing directory has an existing
parent and `write` then fails with `InvalidInput` (opening a directory as a
file), so write-then-read does not return the bytes. -/
theorem c1_cex :
    (do
      let a ← fsCreateDir 0 initFs pathD
      (pure ((a.lookup []).map Entry.type,
        (do
          let b ← fsWrite 0 a pathD [7]
          fsRead b pathD : Except ErrKind (List Nat))) : Except ErrKind _))
      = .ok (some (.directory ["d"]), .error .invalidInput) ∧
    (Except.error .invalidInput : Except ErrKind (List Nat)) ≠ .ok [7] := by
  constructor
  · decide
  · decide

/-- C5 counterexample: after `write /f [1,2]` and `hard_link /f /l`, reads
of link and original agree (first half of the claim), but `remove_file /l`
canonicalizes with hard-link resolution and therefore deletes the *original*
entry `/f`: afterwards `read /f` fails with `NotFound` while the dangling
link entry `/l` is still in the table — the original is not left
unaffected. -/
theorem c5_cex :
    (do
      let a ← fsWrite 0 initFs pathF [1, 2]
      let b ← fsHardLink 0 a pathF pathL
      (pure (fsRead b pathL, fsRead b pathF,
        (fsRemoveFile b pathL).map (fun c => (fsRead c pathF, (c.lookup ["l"]).isSome))) :
        Except ErrKind _))
      = .ok (.ok [1, 2], .ok [1, 2], .ok (.error .notFound, true)) := by
  rfl

/-- C6 counterexample: with a base owning the directory `/m/d` and an empty
overlay mounted at `/m`, the overlay does not report `d` as existing, yet
`read_dir("/m/d")` is *not* served by the base: the stacked call forwards
straight to the overlay and returns its `NotFound` error, while the base
would have served the listing. -/
theorem c6_cex :
    (memBackend initFs).pathExists [.normal "d"] = .ok false ∧
    stackedReadDir (memBackend c6Base) (memBackend initFs) mountM pathMD = .error .notFound ∧
    exceptIsOk ((memBackend c6Base).readDir pathMD) = true := by
  refine ⟨by decide, by decide, by decide⟩

/-- C7: the claim (and the spec) state that an overlay-domain path is
canonicalized by the overlay and the mount point re-prepended, the intent
visible in the code's `self.mount_point.join(...)`; but `PathBuf::join`
*replaces* the receiver when its argument is absolute, and the in-memory
backend's canonicalize always returns an absolute path. Concretely,
`canonicalize("/m/x")` on a stack of two memory filesystems mounted at `/m`
returns `/x`, which does not begin with the mount point. -/
theorem c7_mount_lost :
    stackedCanonicalize (memBackend initFs) (memBackend initFs) mountM pathMX
      = .ok [.rootDir, .normal "x"] ∧
    ¬ mountM <+: [Comp.rootDir, Comp.normal "x"] := by
  refine ⟨by decide, by decide⟩

/-- C8 counterexample: `/link` is absolute and contains no `.` or `..`
components, hence already canonical in the claim's sense; but after
`hard_link("/", "/link")` (the crate's own unit test), `canonicalize`
resolves the hard link and returns `/`, not `/link` unchanged. -/
theorem c8_cex :
    (fsHardLink 0 initFs pathRoot pathLink).map
      (fun f => canonicalizeInner f pathLink true) = .ok (.ok []) ∧
    ([] : CPath) ≠ ["link"] := by
  refine ⟨by decide, by decide⟩

/-- C9 counterexample: seeking from `End` with offset `+1` on an empty
buffer would produce the non-negative position `1`, which the claim says
must succeed; the code instead fails with `InvalidInput`, because
`(-offset) as usize` wraps to `2^64 - 1`, which exceeds the buffer length. -/
theorem c9_cex :
    fileSeek [] 0 (.fromEnd 1) = .error .invalidInput ∧
    (0 : Int) ≤ ((List.length ([] : List Nat) : Int) + 1) := by
  refine ⟨by decide, by decide⟩

end Unifs
